import Mathlib

/-!
Verification development for the everscale-vm core interpreter.

The Rust sources are embedded shallowly:
* `src/vm/src/dispatch.rs` — dispatch table builder, overlap check, binary-search lookup;
* `src/src/state.rs` — `VmState`, `step`/`run`, continuations glue, commit, gas meter;
* `src/src/instr/arithops.rs` — the arithmetic instruction family.

Machine integers (`u32`/`u64`/`u16`) only ever hold values far below their
width in the modelled code paths, so they are embedded as `Nat` (with explicit
truncation where the source truncates); `i32`/`i8`/`i16` values are embedded as
`Int`.  Stacks are embedded as Lean lists with the TOP of the stack at the HEAD
of the list (the Rust `Vec` keeps the top at the end; the embedding reverses
the order, so Rust `push` is `::`, Rust `drain(0..n)` drops from the list
tail).  Fallible Rust functions returning `Result`/`VmResult` become
`Except`-valued functions; `&mut self` methods explicitly return the updated
state, also on the error path (Rust mutations before an early return persist).

Code of the repository that is not under `src/` (the stack primitives, the
continuation trait impls, the cell library and the exception-code table) is
modelled from the spec; every such definition carries a doc comment starting
with `Modelled from the spec:`.
-/

/-! ## Dispatch table core (src/vm/src/dispatch.rs) -/

/-- `MAX_OPCODE_BITS` from dispatch.rs. -/
def MAX_OPCODE_BITS : Nat := 24

/-- `MAX_OPCODE = 1 << MAX_OPCODE_BITS` from dispatch.rs. -/
def MAX_OPCODE : Nat := 1 <<< MAX_OPCODE_BITS

/-- `GAS_PER_INSTRUCTION` from dispatch.rs. -/
def GAS_PER_INSTRUCTION : Nat := 10

/-- `GAS_PER_BIT` from dispatch.rs. -/
def GAS_PER_BIT : Nat := 1

/-- Identities of the registered handler functions of `arithops.rs`, together
with the argument-decoding wrapper generated by the `#[instr]` attribute
(the `args(...)` expressions in the source).  The dispatch table stores these
tags instead of Rust function pointers; `runInstr` below interprets them. -/
inductive InstrExec where
  /-- `exec_push_tinyint4` via `7x`, `x = ((args as i32 + 5) & 0xf) - 5`. -/
  | pushTinyint4
  /-- `exec_push_tinyint4` via `80xx`, `x = args as i8 as i32`. -/
  | pushInt8
  /-- `exec_push_tinyint4` via `81xxxx`, `x = args as i16 as i32`. -/
  | pushInt16
  /-- `exec_push_int` (extended `0x82` PUSHINT), registered by `add_ext_range`. -/
  | pushIntExt
  /-- `exec_push_pow2` via `83xx`, `x = (args & 0xff) + 1`. -/
  | pushPow2
  /-- `exec_push_nan` via `83ff`. -/
  | pushNan
  /-- `exec_push_pow2dec` via `84xx`, `x = (args & 0xff) + 1`. -/
  | pushPow2Dec
  /-- `exec_push_negpow2` via `85xx`, `x = (args & 0xff) + 1`. -/
  | pushNegPow2
  /-- `exec_add` (`a0` strict / `b7a0` quiet). -/
  | add (quiet : Bool)
  /-- `exec_sub` (`a1` / `b7a1`). -/
  | sub (quiet : Bool)
  /-- `exec_subr` (`a2` / `b7a2`). -/
  | subr (quiet : Bool)
  /-- `exec_negate` (`a3` / `b7a3`). -/
  | negate (quiet : Bool)
  /-- `exec_inc` (`a4` / `b7a4`). -/
  | inc (quiet : Bool)
  /-- `exec_dec` (`a5` / `b7a5`). -/
  | dec (quiet : Bool)
  /-- `exec_addint` (`a6yy` / `b7a6yy`), `y = args as i8`. -/
  | addInt (quiet : Bool)
  /-- `exec_mulint` (`a7yy` / `b7a7yy`), `y = args as i8`. -/
  | mulInt (quiet : Bool)
  /-- `exec_mul` (`a8` / `b7a8`). -/
  | mul (quiet : Bool)
deriving DecidableEq, Repr

/-- The opcode variants of dispatch.rs: `DummyOpcode`, `SimpleOpcode`,
`FixedOpcode`, `ExtOpcode`.  Each carries its `opcode_min`/`opcode_max`
range (24-bit aligned) and, except for dummies, its handler tag. -/
inductive Opcode where
  | dummy (opcode_min opcode_max : Nat)
  | simple (opcode_min opcode_max : Nat) (opcode_bits : Nat) (exec : InstrExec)
  | fixed (opcode_min opcode_max : Nat) (total_bits : Nat) (exec : InstrExec)
  | ext (opcode_min opcode_max : Nat) (total_bits : Nat) (exec : InstrExec)
deriving DecidableEq, Repr

/-- `Opcode::range`: the `(opcode_min, opcode_max)` pair of each variant. -/
def Opcode.range : Opcode → Nat × Nat
  | .dummy mn mx => (mn, mx)
  | .simple mn mx _ _ => (mn, mx)
  | .fixed mn mx _ _ => (mn, mx)
  | .ext mn mx _ _ => (mn, mx)

/-- The builder `Opcodes { id, opcodes: BTreeMap<u32, Box<dyn Opcode>> }`.
The `BTreeMap` is embedded as a list of key/opcode pairs kept sorted by
strictly ascending key. -/
structure Opcodes where
  id : Nat
  opcodes : List (Nat × Opcode)
deriving DecidableEq, Repr

/-- `DispatchTable::builder(id)`: an empty builder. -/
def DispatchTable.builder (id : Nat) : Opcodes := { id := id, opcodes := [] }

/-- `BTreeMap::insert` on the sorted-list embedding: place the new key in
order; an equal key replaces the old entry (as the Rust map does). -/
def insertEntry : List (Nat × Opcode) → Nat → Opcode → List (Nat × Opcode)
  | [], k, op => [(k, op)]
  | e :: rest, k, op =>
    if k < e.1 then (k, op) :: e :: rest
    else if k = e.1 then (k, op) :: rest
    else e :: insertEntry rest k op

/-- `Opcodes::add_opcode`: check the next-higher entry (`range(min..).next()`,
i.e. the first key `≥ min` of the sorted list) and the next-lower entry
(`range(..=min).next_back()`, i.e. the last key `≤ min`), then insert.
`anyhow::ensure!` failures become `Except.error` with the source message. -/
def Opcodes.add_opcode (b : Opcodes) (op : Opcode) : Except String Opcodes := do
  let mn := op.range.1
  let mx := op.range.2
  match (b.opcodes.dropWhile (fun e => e.1 < mn)).head? with
  | some other =>
    if mx ≤ other.1 then pure ()
    else throw "Opcode overlaps with next min"
  | none => pure ()
  match (b.opcodes.takeWhile (fun e => e.1 ≤ mn)).getLast? with
  | some prev =>
    if prev.2.range.2 ≤ mn then pure ()
    else throw "Opcode overlaps with prev max"
  | none => pure ()
  pure { b with opcodes := insertEntry b.opcodes mn op }

/-- The code page: `DispatchTable { id, opcodes: Vec<(u32, Box<dyn Opcode>)> }`. -/
structure DispatchTable where
  id : Nat
  opcodes : List (Nat × Opcode)
deriving DecidableEq, Repr

/-- The loop body of `Opcodes::build`: walk the registered entries in
ascending key order keeping `upto`, inserting a `DummyOpcode` filler in front
of every gap, and a final filler up to `MAX_OPCODE`. -/
def buildEntries (upto : Nat) : List (Nat × Opcode) → List (Nat × Opcode)
  | [] =>
    if upto < MAX_OPCODE then [(upto, .dummy upto MAX_OPCODE)] else []
  | (k, op) :: rest =>
    (if op.range.1 > upto then [(upto, .dummy upto op.range.1)] else [])
      ++ (k, op) :: buildEntries op.range.2 rest

/-- `Opcodes::build`. -/
def Opcodes.build (b : Opcodes) : DispatchTable :=
  { id := b.id, opcodes := buildEntries 0 b.opcodes }

/-- Key of the `k`-th entry of the table vector (`self.opcodes[k].0`).
Out-of-range indices (never reached by the source loop) default to `0`. -/
def keyAt (l : List (Nat × Opcode)) (k : Nat) : Nat :=
  (l.getD k (0, .dummy 0 0)).1

/-- The binary-search loop of `DispatchTable::lookup`.  The Rust `while`
loop terminates because `j - i` strictly decreases; the embedding makes that
structural with a fuel argument, and the caller passes `opcodes.len()` which
bounds the initial `j - i` and hence the iteration count. -/
def lookupStep (l : List (Nat × Opcode)) (opcode : Nat) : Nat → Nat → Nat → Nat
  | 0, i, _ => i
  | fuel + 1, i, j =>
    if j - i > 1 then
      let k := (j + i) / 2
      if keyAt l k ≤ opcode then lookupStep l opcode fuel k j
      else lookupStep l opcode fuel i k
    else i

/-- `DispatchTable::lookup`: binary search for the largest `range_start`
that is `≤ opcode`, returning that entry's opcode description. -/
def DispatchTable.lookup (t : DispatchTable) (opcode : Nat) : Opcode :=
  (t.opcodes.getD (lookupStep t.opcodes opcode t.opcodes.length 0 t.opcodes.length)
    (0, .dummy 0 MAX_OPCODE)).2

/-- `Opcodes::add_simple`: derive the range from an `opcode`/`bits` prefix. -/
def Opcodes.add_simple (b : Opcodes) (opcode bits : Nat) (exec : InstrExec) :
    Except String Opcodes :=
  let remaining_bits := MAX_OPCODE_BITS - bits
  b.add_opcode (.simple (opcode <<< remaining_bits) ((opcode + 1) <<< remaining_bits)
    bits exec)

/-- `Opcodes::add_fixed`. -/
def Opcodes.add_fixed (b : Opcodes) (opcode opcode_bits arg_bits : Nat)
    (exec : InstrExec) : Except String Opcodes :=
  let remaining_bits := MAX_OPCODE_BITS - opcode_bits
  b.add_opcode (.fixed (opcode <<< remaining_bits) ((opcode + 1) <<< remaining_bits)
    (opcode_bits + arg_bits) exec)

/-- `Opcodes::add_fixed_range` (the `_arg_bits` parameter is unused in the
source and omitted here). -/
def Opcodes.add_fixed_range (b : Opcodes) (opcode_min opcode_max total_bits : Nat)
    (exec : InstrExec) : Except String Opcodes :=
  let remaining_bits := MAX_OPCODE_BITS - total_bits
  b.add_opcode (.fixed (opcode_min <<< remaining_bits) (opcode_max <<< remaining_bits)
    total_bits exec)

/-- `Opcodes::add_ext`. -/
def Opcodes.add_ext (b : Opcodes) (opcode opcode_bits arg_bits : Nat)
    (exec : InstrExec) : Except String Opcodes :=
  let remaining_bits := MAX_OPCODE_BITS - opcode_bits
  b.add_opcode (.ext (opcode <<< remaining_bits) ((opcode + 1) <<< remaining_bits)
    (opcode_bits + arg_bits) exec)

/-- `Opcodes::add_ext_range`. -/
def Opcodes.add_ext_range (b : Opcodes) (opcode_min opcode_max total_bits : Nat)
    (exec : InstrExec) : Except String Opcodes :=
  let remaining_bits := MAX_OPCODE_BITS - total_bits
  b.add_opcode (.ext (opcode_min <<< remaining_bits) (opcode_max <<< remaining_bits)
    total_bits exec)

/-! ## Bit reading (the consumed CellSlice interface) -/

/-- Modelled from the spec: `get_uint(offset, n)` returns the numeric value
of the bits as if the most significant bit comes first.  A bit list is read
most-significant-first by left-fold doubling. -/
def bitsToNat (l : List Bool) : Nat :=
  l.foldl (fun a b => 2 * a + (if b then 1 else 0)) 0

/-- Big-endian bit representation of `n` in `w` bits (most significant
first); the embedding's constructor for concrete code slices. -/
def natToBits : Nat → Nat → List Bool
  | 0, _ => []
  | w + 1, n => natToBits w (n / 2) ++ [decide (n % 2 = 1)]

/-! ## Cells and code slices (consumed cell-graph interface) -/

/-- Modelled from the spec: a cell is an immutable tree node with a bit
payload and child references, identified by a hash, exposing its level and
representation depth (§6, glossary).  The hash is abstracted to a `Nat`
(gas accounting only compares hashes for equality). -/
inductive Cell where
  | mk (level : Nat) (reprDepth : Nat) (hash : Nat) (bits : List Bool)
      (refs : List Cell)

/-- Cell level. -/
def Cell.level : Cell → Nat
  | .mk l _ _ _ _ => l

/-- Cell representation depth. -/
def Cell.reprDepth : Cell → Nat
  | .mk _ d _ _ _ => d

/-- Cell representation hash. -/
def Cell.hash : Cell → Nat
  | .mk _ _ h _ _ => h

/-- Cell payload bits. -/
def Cell.bits : Cell → List Bool
  | .mk _ _ _ b _ => b

/-- Cell child references. -/
def Cell.refs : Cell → List Cell
  | .mk _ _ _ _ r => r

/-- Modelled from the spec: `Cell::empty_cell()` — a cell with no payload
and no references (level 0, depth 0); also the `Cell::default()` value. -/
def Cell.emptyCell : Cell := .mk 0 0 0 [] []

/-- `OwnedCellSlice`: a read cursor into a cell, embedded as the remaining
payload bits and remaining references. -/
structure CodeSlice where
  bits : List Bool
  refs : List Cell

/-- `OwnedCellSlice::default()`: the empty slice. -/
def CodeSlice.empty : CodeSlice := { bits := [], refs := [] }

/-- Modelled from the spec: obtaining a slice over a whole cell (bit cursor
and reference cursor at the start). -/
def Cell.asSlice (c : Cell) : CodeSlice := { bits := c.bits, refs := c.refs }

/-- `get_opcode_from_slice`: read `min(MAX_OPCODE_BITS, size_bits)` bits and
left-align them to 24 bits. -/
def getOpcodeFromSlice (s : CodeSlice) : Nat × Nat :=
  let bits := min MAX_OPCODE_BITS s.bits.length
  ((bitsToNat (s.bits.take bits)) <<< (MAX_OPCODE_BITS - bits), bits)

/-! ## Errors and exception codes -/

/-- `VmError` (crate error type; the gas meter's `Error::Cancelled` surfaces
as `outOfGas` per §4.5/§7, and `force_commit`'s `Error::CellOverflow` as
`cellOverflow`). -/
inductive VmError where
  | stackUnderflow (n : Nat)
  | stackOverflow
  | integerOverflow
  | rangeCheckError
  | invalidOpcode
  | typeCheckError
  | cellOverflow
  | cellUnderflow
  | dictError
  | unknown
  | fatal
  | outOfGas
deriving DecidableEq, Repr

/-- Modelled from the spec: the stable exception codes of §4.5
(`StackUnderflow(2) … OutOfGas(13)`), used by `VmException::from(&e) as i32`
and `as_exit_code`. -/
def VmError.exceptionCode : VmError → Int
  | .stackUnderflow _ => 2
  | .stackOverflow => 3
  | .integerOverflow => 4
  | .rangeCheckError => 5
  | .invalidOpcode => 6
  | .typeCheckError => 7
  | .cellOverflow => 8
  | .cellUnderflow => 9
  | .dictError => 10
  | .unknown => 11
  | .fatal => 12
  | .outOfGas => 13

/-! ## Values, continuations and control registers -/

mutual

/-- Modelled from the spec: the tagged stack value (§2: integer, NaN, cell,
slice, builder, continuation, tuple). -/
inductive StackValue where
  | int (v : Int)
  | nan
  | cell (c : Cell)
  | slice (s : CodeSlice)
  | builder (bits : List Bool)
  | cont (c : VmCont)
  | tuple (items : List StackValue)

/-- The continuation variants used by the embedded code: `OrdCont`,
`QuitCont { exit_code }` and `ExcQuitCont` (§3). -/
inductive VmCont where
  | quit (exit_code : Int)
  | excQuit
  | ordinary (code : CodeSlice) (data : ControlData)

/-- `ControlData { nargs, stack, save, cp }` (§3). -/
inductive ControlData where
  | mk (nargs : Option Nat) (stack : Option (List StackValue))
      (save : ControlRegs) (cp : Option Nat)

/-- `ControlRegs { c: [Option<RcCont>; 4], d: [Option<Cell>; 2], c7 }` (§3). -/
inductive ControlRegs where
  | mk (c0 c1 c2 c3 : Option VmCont) (d0 d1 : Option Cell)
      (c7 : Option (List StackValue))

end

/-- `nargs` of a `ControlData`. -/
def ControlData.nargs : ControlData → Option Nat
  | .mk n _ _ _ => n

/-- Saved stack of a `ControlData`. -/
def ControlData.stack : ControlData → Option (List StackValue)
  | .mk _ s _ _ => s

/-- Saved registers of a `ControlData`. -/
def ControlData.save : ControlData → ControlRegs
  | .mk _ _ sv _ => sv

/-- Saved codepage of a `ControlData`. -/
def ControlData.cp : ControlData → Option Nat
  | .mk _ _ _ c => c

/-- Register `c0`. -/
def ControlRegs.c0 : ControlRegs → Option VmCont
  | .mk a _ _ _ _ _ _ => a

/-- Register `c1`. -/
def ControlRegs.c1 : ControlRegs → Option VmCont
  | .mk _ a _ _ _ _ _ => a

/-- Register `c2`. -/
def ControlRegs.c2 : ControlRegs → Option VmCont
  | .mk _ _ a _ _ _ _ => a

/-- Register `c3`. -/
def ControlRegs.c3 : ControlRegs → Option VmCont
  | .mk _ _ _ a _ _ _ => a

/-- Register `d0` (c4). -/
def ControlRegs.d0 : ControlRegs → Option Cell
  | .mk _ _ _ _ a _ _ => a

/-- Register `d1` (c5). -/
def ControlRegs.d1 : ControlRegs → Option Cell
  | .mk _ _ _ _ _ a _ => a

/-- Register `c7`. -/
def ControlRegs.c7 : ControlRegs → Option (List StackValue)
  | .mk _ _ _ _ _ _ a => a

/-- `ControlRegs::default()`: all slots empty. -/
def ControlRegs.empty : ControlRegs := .mk none none none none none none none

/-- Replace register `c0`. -/
def ControlRegs.withC0 (r : ControlRegs) (v : Option VmCont) : ControlRegs :=
  match r with
  | .mk _ a b c d e f => .mk v a b c d e f

/-- Replace register `c1`. -/
def ControlRegs.withC1 (r : ControlRegs) (v : Option VmCont) : ControlRegs :=
  match r with
  | .mk a _ b c d e f => .mk a v b c d e f

/-- Replace register `c2`. -/
def ControlRegs.withC2 (r : ControlRegs) (v : Option VmCont) : ControlRegs :=
  match r with
  | .mk a b _ c d e f => .mk a b v c d e f

/-- Modelled from the spec: one slot of `ControlRegs::merge(src)` — if our
slot is empty adopt `src`'s (§3). -/
def mergeSlot {α : Type} : Option α → Option α → Option α
  | none, b => b
  | some a, _ => some a

/-- Modelled from the spec: one slot of `ControlRegs::preclear(mask)` — for
every slot set in `mask`, clear our slot (§3). -/
def preclearSlot {α β : Type} : Option α → Option β → Option α
  | a, none => a
  | _, some _ => none

/-- Modelled from the spec: `ControlRegs::merge` slot-by-slot (§3). -/
def ControlRegs.merge (r src : ControlRegs) : ControlRegs :=
  .mk (mergeSlot r.c0 src.c0) (mergeSlot r.c1 src.c1) (mergeSlot r.c2 src.c2)
    (mergeSlot r.c3 src.c3) (mergeSlot r.d0 src.d0) (mergeSlot r.d1 src.d1)
    (mergeSlot r.c7 src.c7)

/-- Modelled from the spec: `ControlRegs::preclear` slot-by-slot (§3). -/
def ControlRegs.preclear (r mask : ControlRegs) : ControlRegs :=
  .mk (preclearSlot r.c0 mask.c0) (preclearSlot r.c1 mask.c1)
    (preclearSlot r.c2 mask.c2) (preclearSlot r.c3 mask.c3)
    (preclearSlot r.d0 mask.d0) (preclearSlot r.d1 mask.d1)
    (preclearSlot r.c7 mask.c7)

/-- `VmCont::get_control_data`: only ordinary continuations carry control
data. -/
def VmCont.getControlData : VmCont → Option ControlData
  | .ordinary _ data => some data
  | _ => none

/-- `OrdCont::simple(code, cp_id)`: an ordinary continuation with only the
codepage recorded in its control data. -/
def OrdCont.simple (code : CodeSlice) (cpId : Nat) : VmCont :=
  .ordinary code (.mk none none ControlRegs.empty (some cpId))

/-! ## Gas meter (state.rs `GasConsumer`) -/

/-- `GasConsumer`: remaining gas plus the set of already-charged cell hashes
(the hash set is embedded as a list of hashes). -/
structure GasConsumer where
  gas_max : Nat
  gas_limit : Nat
  gas_credit : Nat
  gas_remaining : Nat
  loaded_cells : List Nat

/-- `GasConsumer::default()` (all counters zero, no loaded cells). -/
def GasConsumer.default : GasConsumer :=
  { gas_max := 0, gas_limit := 0, gas_credit := 0, gas_remaining := 0,
    loaded_cells := [] }

/-- `BUILD_CELL_GAS` from state.rs. -/
def BUILD_CELL_GAS : Nat := 500

/-- `NEW_CELL_GAS` from state.rs. -/
def NEW_CELL_GAS : Nat := 100

/-- `OLD_CELL_GAS` from state.rs. -/
def OLD_CELL_GAS : Nat := 25

/-- `GasConsumer::try_consume`: `gas_remaining.checked_sub(amount)`; on
underflow the meter is left untouched and `Error::Cancelled` is raised,
which surfaces as `OutOfGas` (§4.5/§7). -/
def GasConsumer.try_consume (g : GasConsumer) (amount : Nat) :
    Except VmError Unit × GasConsumer :=
  if amount ≤ g.gas_remaining then
    (.ok (), { g with gas_remaining := g.gas_remaining - amount })
  else
    (.error .outOfGas, g)

/-- `GasConsumerContext::consume_load_cell` with `mode.use_gas()` (the
`LoadMode::Full` used by the embedded call sites): first-time hashes charge
`NEW_CELL_GAS` and are recorded, repeats charge `OLD_CELL_GAS`. -/
def GasConsumer.consumeLoadCell (g : GasConsumer) (c : Cell) :
    Except VmError Unit × GasConsumer :=
  if g.loaded_cells.contains c.hash then
    g.try_consume OLD_CELL_GAS
  else
    let g := { g with loaded_cells := c.hash :: g.loaded_cells }
    g.try_consume NEW_CELL_GAS

/-! ## Stack primitives (consumed via the spec's Stack interface) -/

/-- The stack: a list of tagged values, TOP OF STACK AT THE HEAD. -/
abbrev Stack := List StackValue

/-- The 257-bit integer range `[-2^256, 2^256)` of §3. -/
def intInRange (v : Int) : Prop := -(2 ^ 256 : Int) ≤ v ∧ v < 2 ^ 256

instance (v : Int) : Decidable (intInRange v) := by
  unfold intInRange; infer_instance

/-- Modelled from the spec: `Stack::push_raw_int(x, quiet)` — the 257-bit
bound is enforced on push; out-of-range raises `IntegerOverflow`, or pushes
NaN in quiet mode (§4.6). -/
def Stack.push_raw_int (s : Stack) (v : Int) (quiet : Bool) :
    Except VmError Stack :=
  if intInRange v then .ok (.int v :: s)
  else if quiet then .ok (.nan :: s)
  else .error .integerOverflow

/-- Modelled from the spec: `Stack::push_int` — a strict (non-quiet) raw
push. -/
def Stack.push_int (s : Stack) (v : Int) : Except VmError Stack :=
  s.push_raw_int v false

/-- Modelled from the spec: `Stack::push_nan` (NaN is a distinct tag, §3). -/
def Stack.push_nan (s : Stack) : Stack := .nan :: s

/-- Modelled from the spec: `Stack::pop_int_or_nan` — pop the top value;
an integer yields `some`, NaN yields `none`, another tag is a type-check
error, an empty stack underflows. -/
def Stack.pop_int_or_nan (s : Stack) :
    Except VmError (Option Int × Stack) :=
  match s with
  | .int v :: rest => .ok (some v, rest)
  | .nan :: rest => .ok (none, rest)
  | _ :: _ => .error .typeCheckError
  | [] => .error (.stackUnderflow 0)

/-- Modelled from the spec: `Stack::pop_smallint_range(0, 0xffff)` as used
by the default exception handler — pop the top value, requiring an integer
within the range. -/
def Stack.popSmallintRange (s : Stack) (maxVal : Nat) :
    Except VmError (Nat × Stack) :=
  match s with
  | .int v :: rest =>
    if 0 ≤ v ∧ v ≤ (maxVal : Int) then .ok (v.toNat, rest)
    else .error .rangeCheckError
  | .nan :: _ => .error .integerOverflow
  | _ :: _ => .error .typeCheckError
  | [] => .error (.stackUnderflow 0)

/-- Modelled from the spec: `Stack::depth` = length (§3). -/
def Stack.depth (s : Stack) : Nat := s.length

/-- Modelled from the spec: `Stack::drop_bottom(n)` — drop the `n` bottom
items (§4.4).  With the top at the list head, the bottom items are the list
tail, so the first `depth - n` items are kept. -/
def Stack.drop_bottom (s : Stack) (n : Nat) : Stack :=
  s.take (s.length - n)

/-- Modelled from the spec: `Stack::move_from_stack(from, n)` — move the top
`n` items of `from` onto the top of `s`, preserving their order (§4.4). -/
def Stack.move_from_stack (s : Stack) (src : Stack) (n : Nat) :
    Except VmError (Stack × Stack) :=
  if n ≤ src.length then .ok (src.take n ++ s, src.drop n)
  else .error (.stackUnderflow n)

/-! ## VmState (state.rs) -/

/-- `CommitedState { c4, c5 }` (source spelling kept). -/
structure CommitedState where
  c4 : Cell
  c5 : Cell

/-- `VmState`.  `cp: &'static DispatchTable` is embedded by value (the table
is immutable after build); the write-only `debug` sink is omitted. -/
structure VmState where
  code : CodeSlice
  stack : Stack
  cr : ControlRegs
  commited_state : Option CommitedState
  steps : Nat
  quit0 : VmCont
  quit1 : VmCont
  gas : GasConsumer
  cp : DispatchTable

/-- `VmState::MAX_DATA_DEPTH`. -/
def MAX_DATA_DEPTH : Nat := 512

/-- `VmState::try_commit`: commit clones of c4/c5 when both are present,
both have level 0 and both have representation depth `≤ 512`; otherwise
report `false` and leave the committed state untouched. -/
def VmState.try_commit (st : VmState) : Bool × VmState :=
  match st.cr.d0, st.cr.d1 with
  | some c4, some c5 =>
    if c4.level = 0 ∧ c5.level = 0 ∧ c4.reprDepth ≤ MAX_DATA_DEPTH
        ∧ c5.reprDepth ≤ MAX_DATA_DEPTH then
      (true, { st with commited_state := some { c4 := c4, c5 := c5 } })
    else (false, st)
  | _, _ => (false, st)

/-- `VmState::force_commit`: `Ok(())` on a successful `try_commit`, else
`Error::CellOverflow`. -/
def VmState.force_commit (st : VmState) : Except VmError Unit × VmState :=
  match st.try_commit with
  | (true, st') => (.ok (), st')
  | (false, st') => (.error .cellOverflow, st')

/-! ## Arithmetic handlers (src/src/instr/arithops.rs) -/

/-- Rust `as i8` on an in-opcode argument word: keep the low 8 bits,
interpreted as a signed two's-complement byte. -/
def asI8 (n : Nat) : Int :=
  let b := n % 256
  if b < 128 then (b : Int) else (b : Int) - 256

/-- Rust `as i16` on an in-opcode argument word: keep the low 16 bits,
interpreted as a signed two's-complement 16-bit value. -/
def asI16 (n : Nat) : Int :=
  let b := n % 65536
  if b < 32768 then (b : Int) else (b : Int) - 65536

/-- `Arithops::exec_push_tinyint4` (also the `80xx`/`81xxxx` PUSHINT body):
push the decoded integer. -/
def exec_push_tinyint4 (st : VmState) (x : Int) : Except VmError Int × VmState :=
  match st.stack.push_int x with
  | .ok s => (.ok 0, { st with stack := s })
  | .error e => (.error e, st)

/-- `Arithops::exec_push_int`, the extended `0x82` PUSHINT: 5-bit length
field `l`, payload length `3 + 8·(l+2)` bits.  The source loads the payload
into a byte buffer and right-shifts the big-endian value by
`(8 - value_len % 8) % 8`, which nets out to reading `value_len` bits as an
unsigned big-endian integer. `pushIntFinish` embeds the final
`ok!(... push_int ...); Ok(0)` of the handler. -/
def pushIntFinish (st : VmState) (r : Except VmError Stack) :
    Except VmError Int × VmState :=
  match r with
  | .ok s => (.ok 0, { st with stack := s })
  | .error e => (.error e, st)

def exec_push_int (st : VmState) (args bits : Nat) : Except VmError Int × VmState :=
  let l := (args &&& 31) + 2
  let value_len := 3 + l * 8
  if st.code.bits.length < bits + value_len then (.error .invalidOpcode, st)
  else
    let code_bits := st.code.bits.drop bits
    let intVal : Nat := bitsToNat (code_bits.take value_len)
    let st := { st with code := { st.code with bits := code_bits.drop value_len } }
    pushIntFinish st (st.stack.push_int intVal)

/-- `Arithops::exec_push_pow2`: push `1 << x`, `x = (args & 0xff) + 1`. -/
def exec_push_pow2 (st : VmState) (x : Nat) : Except VmError Int × VmState :=
  match st.stack.push_int ((2 : Int) ^ x) with
  | .ok s => (.ok 0, { st with stack := s })
  | .error e => (.error e, st)

/-- `Arithops::exec_push_nan`. -/
def exec_push_nan (st : VmState) : Except VmError Int × VmState :=
  (.ok 0, { st with stack := st.stack.push_nan })

/-- `Arithops::exec_push_pow2dec`: push `(1 << x) - 1`. -/
def exec_push_pow2dec (st : VmState) (x : Nat) : Except VmError Int × VmState :=
  match st.stack.push_int ((2 : Int) ^ x - 1) with
  | .ok s => (.ok 0, { st with stack := s })
  | .error e => (.error e, st)

/-- `Arithops::exec_push_negpow2`: push `-(1 << x)`. -/
def exec_push_negpow2 (st : VmState) (x : Nat) : Except VmError Int × VmState :=
  match st.stack.push_int (-((2 : Int) ^ x)) with
  | .ok s => (.ok 0, { st with stack := s })
  | .error e => (.error e, st)

/-- Shared shape of the binary instructions `ADD`/`SUB`/`SUBR`/`MUL`: pop
`y` then `x`; on two integers push `f x y` through `push_raw_int`; any NaN
operand pushes NaN in quiet mode and raises `IntegerOverflow` otherwise.
The pops mutate the stack in place, so they remain visible on the error
path, exactly as in the source. -/
def execBinOp (st : VmState) (quiet : Bool) (f : Int → Int → Int) :
    Except VmError Int × VmState :=
  match st.stack.pop_int_or_nan with
  | .error e => (.error e, st)
  | .ok (y, s1) =>
    match s1.pop_int_or_nan with
    | .error e => (.error e, { st with stack := s1 })
    | .ok (x, s2) =>
      match x, y with
      | some x, some y =>
        match s2.push_raw_int (f x y) quiet with
        | .ok s3 => (.ok 0, { st with stack := s3 })
        | .error e => (.error e, { st with stack := s2 })
      | _, _ =>
        if quiet then (.ok 0, { st with stack := s2.push_nan })
        else (.error .integerOverflow, { st with stack := s2 })

/-- Shared shape of the unary instructions `NEGATE`/`INC`/`DEC`/`ADDINT`/
`MULINT`: pop one value; on an integer push `g x` through `push_raw_int`;
NaN pushes NaN in quiet mode and raises `IntegerOverflow` otherwise. -/
def execUnOp (st : VmState) (quiet : Bool) (g : Int → Int) :
    Except VmError Int × VmState :=
  match st.stack.pop_int_or_nan with
  | .error e => (.error e, st)
  | .ok (x, s1) =>
    match x with
    | some x =>
      match s1.push_raw_int (g x) quiet with
      | .ok s2 => (.ok 0, { st with stack := s2 })
      | .error e => (.error e, { st with stack := s1 })
    | none =>
      if quiet then (.ok 0, { st with stack := s1.push_nan })
      else (.error .integerOverflow, { st with stack := s1 })

/-- `Arithops::exec_add`: `x + y`. -/
def exec_add (st : VmState) (quiet : Bool) : Except VmError Int × VmState :=
  execBinOp st quiet (fun x y => x + y)

/-- `Arithops::exec_sub`: `x - y`. -/
def exec_sub (st : VmState) (quiet : Bool) : Except VmError Int × VmState :=
  execBinOp st quiet (fun x y => x - y)

/-- `Arithops::exec_subr`: `y - x`. -/
def exec_subr (st : VmState) (quiet : Bool) : Except VmError Int × VmState :=
  execBinOp st quiet (fun x y => y - x)

/-- `Arithops::exec_mul`: `x * y`. -/
def exec_mul (st : VmState) (quiet : Bool) : Except VmError Int × VmState :=
  execBinOp st quiet (fun x y => x * y)

/-- `Arithops::exec_negate`: `-x`. -/
def exec_negate (st : VmState) (quiet : Bool) : Except VmError Int × VmState :=
  execUnOp st quiet (fun x => -x)

/-- `Arithops::exec_inc`: `x + 1`. -/
def exec_inc (st : VmState) (quiet : Bool) : Except VmError Int × VmState :=
  execUnOp st quiet (fun x => x + 1)

/-- `Arithops::exec_dec`: `x - 1`. -/
def exec_dec (st : VmState) (quiet : Bool) : Except VmError Int × VmState :=
  execUnOp st quiet (fun x => x - 1)

/-- `Arithops::exec_addint`: `x + y` for the immediate `y = args as i8`. -/
def exec_addint (st : VmState) (y : Int) (quiet : Bool) :
    Except VmError Int × VmState :=
  execUnOp st quiet (fun x => x + y)

/-- `Arithops::exec_mulint`: `x * y` for the immediate `y = args as i8`. -/
def exec_mulint (st : VmState) (y : Int) (quiet : Bool) :
    Except VmError Int × VmState :=
  execUnOp st quiet (fun x => x * y)

/-- Interpretation of the handler tags: each tag runs its handler after the
argument decoding of its `#[instr] args(...)` attribute (`args` is the
shifted opcode word passed by `FixedOpcode::dispatch`/`ExtOpcode::dispatch`;
simple handlers ignore it). -/
def runInstr : InstrExec → Nat → Nat → VmState → Except VmError Int × VmState
  | .pushTinyint4, args, _, st =>
    exec_push_tinyint4 st ((((args + 5) &&& 0xf : Nat) : Int) - 5)
  | .pushInt8, args, _, st => exec_push_tinyint4 st (asI8 args)
  | .pushInt16, args, _, st => exec_push_tinyint4 st (asI16 args)
  | .pushIntExt, args, bits, st => exec_push_int st args bits
  | .pushPow2, args, _, st => exec_push_pow2 st ((args &&& 0xff) + 1)
  | .pushNan, _, _, st => exec_push_nan st
  | .pushPow2Dec, args, _, st => exec_push_pow2dec st ((args &&& 0xff) + 1)
  | .pushNegPow2, args, _, st => exec_push_negpow2 st ((args &&& 0xff) + 1)
  | .add q, _, _, st => exec_add st q
  | .sub q, _, _, st => exec_sub st q
  | .subr q, _, _, st => exec_subr st q
  | .negate q, _, _, st => exec_negate st q
  | .inc q, _, _, st => exec_inc st q
  | .dec q, _, _, st => exec_dec st q
  | .addInt q, args, _, st => exec_addint st (asI8 args) q
  | .mulInt q, args, _, st => exec_mulint st (asI8 args) q
  | .mul q, _, _, st => exec_mul st q

/-- The `Opcode::dispatch` impls of dispatch.rs for the four variants:
pre-charge gas, check the available bits, advance the cursor (except for
`Ext`, which advances itself), then run the handler. -/
def execOpcode (op : Opcode) (st : VmState) (opcode bits : Nat) :
    Except VmError Int × VmState :=
  match op with
  | .dummy _ _ =>
    match st.gas.try_consume GAS_PER_INSTRUCTION with
    | (.ok _, g) => (.error .invalidOpcode, { st with gas := g })
    | (.error e, g) => (.error e, { st with gas := g })
  | .simple _ _ opcode_bits ex =>
    match st.gas.try_consume (GAS_PER_INSTRUCTION + opcode_bits * GAS_PER_BIT) with
    | (.error e, g) => (.error e, { st with gas := g })
    | (.ok _, g) =>
      let st := { st with gas := g }
      if bits < opcode_bits then (.error .invalidOpcode, st)
      else
        runInstr ex 0 0
          { st with code := { st.code with bits := st.code.bits.drop opcode_bits } }
  | .fixed _ _ total_bits ex =>
    match st.gas.try_consume (GAS_PER_INSTRUCTION + total_bits * GAS_PER_BIT) with
    | (.error e, g) => (.error e, { st with gas := g })
    | (.ok _, g) =>
      let st := { st with gas := g }
      if bits < total_bits then (.error .invalidOpcode, st)
      else
        runInstr ex (opcode >>> (MAX_OPCODE_BITS - total_bits)) total_bits
          { st with code := { st.code with bits := st.code.bits.drop total_bits } }
  | .ext _ _ total_bits ex =>
    match st.gas.try_consume (GAS_PER_INSTRUCTION + total_bits * GAS_PER_BIT) with
    | (.error e, g) => (.error e, { st with gas := g })
    | (.ok _, g) =>
      let st := { st with gas := g }
      if bits < total_bits then (.error .invalidOpcode, st)
      else runInstr ex (opcode >>> (MAX_OPCODE_BITS - total_bits)) total_bits st

/-- `DispatchTable::dispatch`: extract the opcode from the cursor, look the
handler up and run it. -/
def DispatchTable.dispatch (t : DispatchTable) (st : VmState) :
    Except VmError Int × VmState :=
  let (opcode, bits) := getOpcodeFromSlice st.code
  execOpcode (t.lookup opcode) st opcode bits

/-- Registrations of the `Arithops` module: the `#[init]` body followed by
every `#[instr]` attribute of arithops.rs in source order, with the
`add_simple`/`add_fixed`/`add_fixed_range` shape determined by the opcode
pattern of each attribute. -/
def codepage0Builder : Except String Opcodes := do
  let b := DispatchTable.builder 0
  let b ← b.add_ext_range (0x82 <<< 5) ((0x82 <<< 5) + 31) 13 .pushIntExt
  let b ← b.add_fixed 0x7 4 4 .pushTinyint4
  let b ← b.add_fixed 0x80 8 8 .pushInt8
  let b ← b.add_fixed 0x81 8 16 .pushInt16
  let b ← b.add_fixed_range 0x8300 0x83ff 16 .pushPow2
  let b ← b.add_simple 0x83ff 16 .pushNan
  let b ← b.add_fixed 0x84 8 8 .pushPow2Dec
  let b ← b.add_fixed 0x85 8 8 .pushNegPow2
  let b ← b.add_simple 0xa0 8 (.add false)
  let b ← b.add_simple 0xb7a0 16 (.add true)
  let b ← b.add_simple 0xa1 8 (.sub false)
  let b ← b.add_simple 0xb7a1 16 (.sub true)
  let b ← b.add_simple 0xa2 8 (.subr false)
  let b ← b.add_simple 0xb7a2 16 (.subr true)
  let b ← b.add_simple 0xa3 8 (.negate false)
  let b ← b.add_simple 0xb7a3 16 (.negate true)
  let b ← b.add_simple 0xa4 8 (.inc false)
  let b ← b.add_simple 0xb7a4 16 (.inc true)
  let b ← b.add_simple 0xa5 8 (.dec false)
  let b ← b.add_simple 0xb7a5 16 (.dec true)
  let b ← b.add_fixed 0xa6 8 8 (.addInt false)
  let b ← b.add_fixed 0xb7a6 16 8 (.addInt true)
  let b ← b.add_fixed 0xa7 8 8 (.mulInt false)
  let b ← b.add_fixed 0xb7a7 16 8 (.mulInt true)
  let b ← b.add_simple 0xa8 8 (.mul false)
  let b ← b.add_simple 0xb7a8 16 (.mul true)
  pure b

/-- Modelled from the spec: `codepage0()` — the codepage-0 dispatch table
holding the registered instruction families (here, the arithmetic family of
§4.6, the representative instruction set of this repository snapshot),
finalized by `Opcodes::build`. -/
def codepage0 : DispatchTable :=
  match codepage0Builder with
  | .ok b => b.build
  | .error _ => { id := 0, opcodes := [] }

/-- Modelled from the spec: `codepage(id)` — resolve a codepage id; only
codepage 0 exists in this snapshot (§3 Codepage). -/
def codepage (id : Nat) : Option DispatchTable :=
  if id = 0 then some codepage0 else none

/-! ## Continuation jumps, step and run (state.rs) -/

/-- `VmState::force_cp`: resolve and install a codepage. -/
def VmState.force_cp (st : VmState) (cp : Nat) : Except VmError Unit × VmState :=
  match codepage cp with
  | some t => (.ok (), { st with cp := t })
  | none => (.error .invalidOpcode, st)

/-- Modelled from the spec: the `Cont::jump` trait impls.
* `QuitCont`: terminate with `!exit_code` (run's "Try commit on ~(0) and
  ~(-1) exit codes" comment documents this encoding).
* `ExcQuitCont`: the default exception handler — pop the exception code `n`
  from the stack and terminate with it (§4.5: the exception kind is surfaced
  externally by its stable code; §8 scenario 7).
* `OrdCont`: install the continuation's code into the cursor, merge its
  saved registers (`adjust_cr`) and switch to its codepage (§4.4, glossary). -/
def VmCont.jump : VmCont → VmState → Except VmError Int × VmState
  | .quit exit_code, st => (.ok (-exit_code - 1), st)
  | .excQuit, st =>
    match st.stack.popSmallintRange 0xffff with
    | .ok (n, s) => (.ok (n : Int), { st with stack := s })
    | .error e => (.error e, st)
  | .ordinary code data, st =>
    let st := { st with cr := st.cr.merge data.save }
    match data.cp with
    | some cp =>
      match st.force_cp cp with
      | (.ok _, st) => (.ok 0, { st with code := code })
      | (.error e, st) => (.error e, st)
    | none => (.ok 0, { st with code := code })

/-- `VmState::jump_ext`. -/
def VmState.jump_ext (st : VmState) (cont : VmCont) (pass_args : Option Nat) :
    Except VmError Int × VmState :=
  match cont.getControlData with
  | some control_data =>
    let current_depth := st.stack.depth
    if ¬(pass_args.getD 0 ≤ current_depth
        ∧ control_data.nargs.getD 0 ≤ current_depth) then
      (.error (.stackUnderflow
        (max (pass_args.getD 0) (control_data.nargs.getD 0))), st)
    else if (match pass_args with
        | some p => decide (control_data.nargs.getD 0 ≤ p)
        | none => true) = false then
      (.error (.stackUnderflow (pass_args.getD 0)), st)
    else
      -- Prepare the current savelist to be overwritten by the continuation
      let st := { st with cr := st.cr.preclear control_data.save }
      let next_depth := (control_data.nargs.or pass_args).getD current_depth
      match control_data.stack with
      | some cont_stack =>
        if cont_stack.isEmpty then
          if next_depth < current_depth then
            cont.jump
              { st with stack := st.stack.drop_bottom (current_depth - next_depth) }
          else cont.jump st
        else
          match Stack.move_from_stack cont_stack st.stack next_depth with
          | .ok (merged, _) => cont.jump { st with stack := merged }
          | .error e => (.error e, st)
      | none =>
        if next_depth < current_depth then
          cont.jump
            { st with stack := st.stack.drop_bottom (current_depth - next_depth) }
        else cont.jump st
  | none =>
    match pass_args with
    | some p =>
      if st.stack.depth < p then (.error (.stackUnderflow p), st)
      else
        let depth_diff := st.stack.depth - p
        if depth_diff > 0 then
          cont.jump { st with stack := st.stack.drop_bottom depth_diff }
        else cont.jump st
    | none => cont.jump st

/-- `VmState::jump`: delegate to `jump_ext` when the continuation carries a
saved stack or an `nargs`, else invoke the continuation directly. -/
def VmState.jump (st : VmState) (cont : VmCont) : Except VmError Int × VmState :=
  match cont.getControlData with
  | some cont_data =>
    if cont_data.stack.isSome || cont_data.nargs.isSome then st.jump_ext cont none
    else cont.jump st
  | none => cont.jump st

/-- `VmState::take_c0`: replace `c[0]` with the stored quit0 and hand the
old occupant out (an empty slot is `InvalidOpcode`). -/
def VmState.take_c0 (st : VmState) : Except VmError VmCont × VmState :=
  let st' := { st with cr := st.cr.withC0 (some st.quit0) }
  match st.cr.c0 with
  | some cont => (.ok cont, st')
  | none => (.error .invalidOpcode, st')

/-- `VmState::take_c1`. -/
def VmState.take_c1 (st : VmState) : Except VmError VmCont × VmState :=
  let st' := { st with cr := st.cr.withC1 (some st.quit1) }
  match st.cr.c1 with
  | some cont => (.ok cont, st')
  | none => (.error .invalidOpcode, st')

/-- `VmState::ret`. -/
def VmState.ret (st : VmState) : Except VmError Int × VmState :=
  match st.take_c0 with
  | (.ok cont, st') => st'.jump cont
  | (.error e, st') => (.error e, st')

/-- `VmState::throw_exception(n)`: stack becomes `[0, n]` (top `n`), the
code cursor is cleared and control jumps to `c[2]` (required to be set). -/
def VmState.throw_exception (st : VmState) (n : Int) : Except VmError Int × VmState :=
  let st := { st with stack := [.int n, .int 0], code := CodeSlice.empty }
  match st.cr.c2 with
  | some c2 => st.jump c2
  | none => (.error .invalidOpcode, st)

/-- `VmState::step`: dispatch the next opcode when the cursor has data
bits, else implicit JMPREF into reference 0 (loaded through the gas-charged
cell context), else implicit RET. -/
def VmState.step (st : VmState) : Except VmError Int × VmState :=
  let st := { st with steps := st.steps + 1 }
  if st.code.bits ≠ [] then st.cp.dispatch st
  else
    match st.code.refs with
    | next_cell :: _ =>
      -- implicit JMPREF
      match st.gas.consumeLoadCell next_cell with
      | (.ok _, g) =>
        let st := { st with gas := g }
        st.jump (OrdCont.simple next_cell.asSlice st.cp.id)
      | (.error e, g) => (.error e, { st with gas := g })
    | [] =>
      -- implicit RET
      st.ret

/-- Outcome of one iteration of the `run` loop: break with an exit code or
continue with the updated state. -/
inductive LoopRes where
  | brk (code : Int) (st : VmState)
  | next (st : VmState)

/-- The exit-code handling at the bottom of `run`'s loop body: a zero result
continues; on `res | 1 == -1` a commit is attempted, a failed commit resets
the stack to `[0]` and exits with the CellOverflow code; any other non-zero
result exits as is. -/
def runRes (res : Int) (st : VmState) : LoopRes :=
  if res = 0 then .next st
  else if Int.lor res 1 = -1 then
    match st.try_commit with
    | (true, st2) => .brk res st2
    | (false, st2) =>
      .brk VmError.cellOverflow.exceptionCode { st2 with stack := [.int 0] }
  else .brk res st

/-- One iteration of `VmState::run`: `step`, converting a step error into a
VM exception thrown at `c[2]` (a second error terminates with that
exception's exit code), then the exit-code handling. -/
def VmState.runIter (st : VmState) : LoopRes :=
  match st.step with
  | (.ok res, st1) => runRes res st1
  | (.error e, st1) =>
    let st1 := { st1 with steps := st1.steps + 1 }
    match st1.throw_exception e.exceptionCode with
    | (.ok res, st2) => runRes res st2
    | (.error e2, st2) => .brk e2.exceptionCode st2

/-- `VmState::run`: iterate `runIter`.  The Rust loop runs unboundedly; the
embedding takes an iteration budget and returns `none` when it is exhausted,
`some (exit_code, final_state)` when the loop breaks. -/
def VmState.run : Nat → VmState → Option (Int × VmState)
  | 0, _ => none
  | fuel + 1, st =>
    match st.runIter with
    | .brk code st' => some (code, st')
    | .next st' => st'.run fuel

/-! ## VmStateBuilder (state.rs) -/

/-- `VmStateBuilder` (the debug sink is omitted). -/
structure VmStateBuilder where
  code : CodeSlice
  data : Option Cell
  stack : Stack
  c7 : Option (List StackValue)
  same_c3 : Bool
  without_push0 : Bool

/-- `VmStateBuilder::build`.  The source wraps the state in `Ok(..)` and has
no failure path, so the embedding returns the state directly.  `QUIT0`,
`QUIT1` and `EXC_QUIT` are the thread-local quit continuations of state.rs. -/
def VmStateBuilder.build (b : VmStateBuilder) : VmState :=
  let stack := if b.same_c3 ∧ ¬b.without_push0 then .int 0 :: b.stack else b.stack
  let quit0 := VmCont.quit 0
  let quit1 := VmCont.quit 1
  let cp := codepage0
  { cr := .mk (some quit0) (some quit1) (some .excQuit)
      (some (if b.same_c3 then OrdCont.simple b.code cp.id else .quit 11))
      (some (b.data.getD Cell.emptyCell)) (some Cell.emptyCell)
      (some (b.c7.getD []))
    code := b.code
    stack := stack
    commited_state := none
    steps := 0
    quit0 := quit0
    quit1 := quit1
    gas := GasConsumer.default
    cp := cp }

/-! ## Invariant predicates and auxiliary definitions for the proofs -/

/-- Builder invariant: entry keys ascend starting at `lo`, each key equals
its opcode's `range_start`, ranges are non-empty, bounded by `MAX_OPCODE`
and chain without overlapping (each `range_end ≤` the next key). -/
def entriesChained (lo : Nat) : List (Nat × Opcode) → Bool
  | [] => true
  | (k, op) :: rest =>
    decide (lo ≤ k) && decide (k = op.range.1) && decide (op.range.1 < op.range.2)
      && decide (op.range.2 ≤ MAX_OPCODE) && entriesChained op.range.2 rest

/-- Built-table invariant: entries tile `[lo, MAX_OPCODE)` without gaps —
each key equals `lo`, equals its opcode's `range_start`, and the next entry
continues at `range_end`; the last `range_end` is `MAX_OPCODE`. -/
def entriesGapless (lo : Nat) : List (Nat × Opcode) → Bool
  | [] => decide (lo = MAX_OPCODE)
  | (k, op) :: rest =>
    decide (k = lo) && decide (op.range.1 = lo) && decide (lo < op.range.2)
      && entriesGapless op.range.2 rest

/-- The two `anyhow::ensure!` conditions of `Opcodes::add_opcode` as a
proposition over the registered entries. -/
def addChecksOk (l : List (Nat × Opcode)) (mn mx : Nat) : Prop :=
  (match (l.dropWhile (fun e => e.1 < mn)).head? with
   | some other => mx ≤ other.1
   | none => True) ∧
  (match (l.takeWhile (fun e => e.1 ≤ mn)).getLast? with
   | some prev => prev.2.range.2 ≤ mn
   | none => True)

/-- Two half-open ranges do not intersect. -/
def rangesDisjoint (a b : Nat × Nat) : Prop := a.2 ≤ b.1 ∨ b.2 ≤ a.1

instance (a b : Nat × Nat) : Decidable (rangesDisjoint a b) := by
  unfold rangesDisjoint; infer_instance

/-- Iterated `VmState::step`, following the state through both successful
and failed steps (a sequence of `step` calls on the same `&mut self`). -/
def VmState.stepN : Nat → VmState → VmState
  | 0, st => st
  | n + 1, st => VmState.stepN n st.step.2

/-- A concrete VM state for witnesses: the given code and stack over the
default build (codepage 0, default registers), with the given gas. -/
def baseState (code : CodeSlice) (stack : Stack) (g : Nat) : VmState :=
  let st := VmStateBuilder.build
    { code := code, data := none, stack := stack, c7 := none,
      same_c3 := false, without_push0 := true }
  { st with gas := { st.gas with gas_remaining := g } }

/-! ## Claim theorems -/

/-- C6: `try_commit` returns true and stores clones of c4 and c5 as the
committed state exactly when both `cr.d[0]` and `cr.d[1]` are set, both have
cell level 0 and both have representation depth ≤ 512; otherwise it returns
false and the state (in particular `commited_state`) is unchanged.
`force_commit` succeeds iff `try_commit` returns true and fails with
`CellOverflow` otherwise. -/
theorem claim_try_commit (st : VmState) :
    (st.try_commit.1 = true ↔ ∃ c4 c5, st.cr.d0 = some c4 ∧ st.cr.d1 = some c5 ∧
      c4.level = 0 ∧ c5.level = 0 ∧ c4.reprDepth ≤ MAX_DATA_DEPTH ∧
      c5.reprDepth ≤ MAX_DATA_DEPTH) ∧
    (st.try_commit.1 = true → ∃ c4 c5, st.cr.d0 = some c4 ∧ st.cr.d1 = some c5 ∧
      st.try_commit.2 = { st with commited_state := some { c4 := c4, c5 := c5 } }) ∧
    (st.try_commit.1 = false → st.try_commit.2 = st) ∧
    (st.try_commit.1 = true → st.force_commit = (.ok (), st.try_commit.2)) ∧
    (st.try_commit.1 = false → st.force_commit = (.error .cellOverflow, st)) := by
  unfold VmState.force_commit VmState.try_commit
  rcases hd0 : st.cr.d0 with _ | c4 <;> rcases hd1 : st.cr.d1 with _ | c5 <;>
    simp [hd0, hd1]
  split_ifs with hcond
  · simp [hcond]
  · simp [hcond]

/-- Witness for C6 at a concrete state: the default build commits (both data
cells are the empty cell) and `force_commit` succeeds. -/
theorem claim_try_commit_witness :
    (baseState CodeSlice.empty [] 0).try_commit.1 = true ∧
    (baseState CodeSlice.empty [] 0).force_commit =
      (.ok (), (baseState CodeSlice.empty [] 0).try_commit.2) := by
  refine ⟨rfl, ?_⟩
  exact (claim_try_commit (baseState CodeSlice.empty [] 0)).2.2.2.1 rfl

/-- C10: after `VmStateBuilder::build`, every control-register slot is
populated: c0/c1 are the quit-0/quit-1 continuations, c2 the exception-quit
continuation, c3 an ordinary continuation over the code when `same_c3` is
set and a quit continuation with exit code 11 otherwise, d[0] the supplied
data cell or a default cell, d[1] the empty cell, and c7 the supplied tuple
or an empty tuple. -/
theorem claim_builder_populates (b : VmStateBuilder) :
    b.build.cr.c0 = some (VmCont.quit 0) ∧
    b.build.cr.c1 = some (VmCont.quit 1) ∧
    b.build.cr.c2 = some VmCont.excQuit ∧
    b.build.cr.c3 = some (if b.same_c3 then OrdCont.simple b.code codepage0.id
      else VmCont.quit 11) ∧
    b.build.cr.d0 = some (b.data.getD Cell.emptyCell) ∧
    b.build.cr.d1 = some Cell.emptyCell ∧
    b.build.cr.c7 = some (b.c7.getD []) := by
  unfold VmStateBuilder.build
  simp [ControlRegs.c0, ControlRegs.c1, ControlRegs.c2, ControlRegs.c3,
    ControlRegs.d0, ControlRegs.d1, ControlRegs.c7]

/-- An ordinary continuation's `jump` only touches registers, codepage and
code cursor: the stack is preserved (on the error path too). -/
theorem ordJump_stack (code : CodeSlice) (data : ControlData) (st : VmState) :
    (VmCont.jump (.ordinary code data) st).2.stack = st.stack := by
  rcases hcp : data.cp with _ | cp
  · simp [VmCont.jump, hcp]
  · by_cases h0 : cp = 0 <;> simp [VmCont.jump, VmState.force_cp, codepage, hcp, h0]

/-- `drop_bottom` removes exactly `n` items (when `n` is within the depth,
the resulting depth is `depth - n`). -/
theorem drop_bottom_length (s : Stack) (n : Nat) :
    (s.drop_bottom n).length = s.length - n := by
  simp [Stack.drop_bottom]

/-- A successful ordinary jump hands the stack through unchanged. -/
theorem ordJump_ok_stack (code : CodeSlice) (data : ControlData) (stM st' : VmState)
    (r : Int) (h : VmCont.jump (.ordinary code data) stM = (.ok r, st')) :
    st'.stack = stM.stack := by
  have h2 : (VmCont.jump (.ordinary code data) stM).2 = st' := congrArg Prod.snd h
  rw [← h2, ordJump_stack]

/-- C2: for `jump_ext(cont, pass_args)` on a continuation whose control data
lacks a non-empty saved stack — before any state change `StackUnderflow` is
raised if `pass_args` or `nargs` exceeds the current depth or if both are
given with `nargs > pass_args`; and whenever the call succeeds, the active
stack has depth exactly `nargs.or(pass_args).or(previous depth)`. -/
theorem claim_jump_depth (st : VmState) (code : CodeSlice) (data : ControlData)
    (pass_args : Option Nat)
    (hstack : data.stack = none ∨ data.stack = some []) :
    ((st.stack.depth < pass_args.getD 0 ∨ st.stack.depth < data.nargs.getD 0 ∨
        (∃ p n, pass_args = some p ∧ data.nargs = some n ∧ p < n)) →
      ∃ m, st.jump_ext (.ordinary code data) pass_args =
        (.error (.stackUnderflow m), st)) ∧
    (∀ r st', st.jump_ext (.ordinary code data) pass_args = (.ok r, st') →
      st'.stack.depth = (data.nargs.or pass_args).getD st.stack.depth) := by
  unfold VmState.jump_ext
  simp only [VmCont.getControlData]
  by_cases hc1 : pass_args.getD 0 ≤ st.stack.depth ∧ data.nargs.getD 0 ≤ st.stack.depth
  case neg => simp [hc1]
  case pos =>
    rw [if_neg (by simpa using hc1)]
    have hle : (data.nargs.or pass_args).getD st.stack.depth ≤ st.stack.depth := by
      have h1 := hc1.1; have h2 := hc1.2
      rcases hna : data.nargs with _ | n <;> rcases hpa : pass_args with _ | p <;>
        rw [hna] at h2 <;> rw [hpa] at h1 <;> simp_all [Option.or]
    constructor
    · rintro (h | h | ⟨p, n, hp, hn, hlt⟩)
      · exact absurd hc1.1 (by omega)
      · exact absurd hc1.2 (by omega)
      · rw [hp, hn]
        rw [if_pos]
        · exact ⟨(some p).getD 0, rfl⟩
        · simp
          omega
    · intro r st' h
      split at h
      case isTrue => exact absurd h (by simp)
      case isFalse hc2 =>
        rcases hstack with hs | hs <;> rw [hs] at h <;>
          simp only [List.isEmpty_nil, if_true] at h
        · by_cases hlt : (data.nargs.or pass_args).getD st.stack.depth < st.stack.depth
          · rw [if_pos hlt] at h
            have h3 := ordJump_ok_stack _ _ _ _ _ h
            simp only [Stack.depth] at *
            rw [h3, drop_bottom_length]
            omega
          · rw [if_neg hlt] at h
            have h3 := ordJump_ok_stack _ _ _ _ _ h
            simp only [Stack.depth] at *
            rw [h3]
            omega
        · by_cases hlt : (data.nargs.or pass_args).getD st.stack.depth < st.stack.depth
          · rw [if_pos hlt] at h
            have h3 := ordJump_ok_stack _ _ _ _ _ h
            simp only [Stack.depth] at *
            rw [h3, drop_bottom_length]
            omega
          · rw [if_neg hlt] at h
            have h3 := ordJump_ok_stack _ _ _ _ _ h
            simp only [Stack.depth] at *
            rw [h3]
            omega

/-- Witness for C2 at concrete inputs: with stack `[1, 2]` (depth 2), a
continuation expecting `nargs = 1` leaves depth 1; one expecting `nargs = 3`
underflows. -/
theorem claim_jump_depth_witness :
    (∃ r st', (baseState CodeSlice.empty [.int 1, .int 2] 0).jump_ext
        (.ordinary CodeSlice.empty (.mk (some 1) none ControlRegs.empty none)) none
        = (.ok r, st') ∧ st'.stack.depth = 1) ∧
    (∃ m, (baseState CodeSlice.empty [.int 1, .int 2] 0).jump_ext
        (.ordinary CodeSlice.empty (.mk (some 3) none ControlRegs.empty none)) none
        = (.error (.stackUnderflow m), baseState CodeSlice.empty [.int 1, .int 2] 0)) := by
  constructor
  · have h := claim_jump_depth (baseState CodeSlice.empty [.int 1, .int 2] 0)
      CodeSlice.empty (.mk (some 1) none ControlRegs.empty none) none (Or.inl rfl)
    exact ⟨0, ((baseState CodeSlice.empty [.int 1, .int 2] 0).jump_ext
        (.ordinary CodeSlice.empty (.mk (some 1) none ControlRegs.empty none)) none).2,
      rfl, h.2 0 _ rfl⟩
  · have h := claim_jump_depth (baseState CodeSlice.empty [.int 1, .int 2] 0)
      CodeSlice.empty (.mk (some 3) none ControlRegs.empty none) none (Or.inl rfl)
    exact h.1 (Or.inr (Or.inl (by decide)))

/-- Behaviour of the shared binary-op shape on two integer operands: within
the 257-bit range the strict and quiet runs coincide; on overflow the strict
run raises `IntegerOverflow` while the quiet run pushes NaN. -/
theorem execBinOp_spec (st : VmState) (x y : Int) (rest : Stack) (f : Int → Int → Int)
    (hstack : st.stack = .int y :: .int x :: rest) :
    (intInRange (f x y) →
      execBinOp st false f = (.ok 0, { st with stack := .int (f x y) :: rest }) ∧
      execBinOp st true f = (.ok 0, { st with stack := .int (f x y) :: rest })) ∧
    (¬intInRange (f x y) →
      execBinOp st false f = (.error .integerOverflow, { st with stack := rest }) ∧
      execBinOp st true f = (.ok 0, { st with stack := .nan :: rest })) := by
  unfold execBinOp
  rw [hstack]
  simp only [Stack.pop_int_or_nan]
  constructor
  · intro hr
    simp [Stack.push_raw_int, hr]
  · intro hr
    simp [Stack.push_raw_int, hr, Stack.push_nan]

/-- Behaviour of the shared unary-op shape on an integer operand, as in
`execBinOp_spec`. -/
theorem execUnOp_spec (st : VmState) (x : Int) (rest : Stack) (g : Int → Int)
    (hstack : st.stack = .int x :: rest) :
    (intInRange (g x) →
      execUnOp st false g = (.ok 0, { st with stack := .int (g x) :: rest }) ∧
      execUnOp st true g = (.ok 0, { st with stack := .int (g x) :: rest })) ∧
    (¬intInRange (g x) →
      execUnOp st false g = (.error .integerOverflow, { st with stack := rest }) ∧
      execUnOp st true g = (.ok 0, { st with stack := .nan :: rest })) := by
  unfold execUnOp
  rw [hstack]
  simp only [Stack.pop_int_or_nan]
  constructor
  · intro hr
    simp [Stack.push_raw_int, hr]
  · intro hr
    simp [Stack.push_raw_int, hr, Stack.push_nan]

/-- C3: for every instruction of the arithmetic family (ADD, SUB, SUBR,
NEGATE, INC, DEC, ADDINT, MULINT, MUL) with integer operands, when the
result stays within `[-2^256, 2^256)` the strict handler and its quiet
variant produce identical resulting states (`Ok(0)` and the result pushed);
when the result is out of range the strict handler fails with
`IntegerOverflow` while the quiet one succeeds leaving NaN on top.  The
quiet handlers are the ones registered under the `b7`-prefixed opcodes of
codepage 0, the strict ones under the plain opcodes. -/
theorem claim_quiet_strict_duality :
    (∀ (st : VmState) (x y : Int) (rest : Stack), st.stack = .int y :: .int x :: rest →
      (intInRange (x + y) →
        exec_add st false = (.ok 0, { st with stack := .int (x + y) :: rest }) ∧
        exec_add st true = (.ok 0, { st with stack := .int (x + y) :: rest })) ∧
      (¬intInRange (x + y) →
        exec_add st false = (.error .integerOverflow, { st with stack := rest }) ∧
        exec_add st true = (.ok 0, { st with stack := .nan :: rest }))) ∧
    (∀ (st : VmState) (x y : Int) (rest : Stack), st.stack = .int y :: .int x :: rest →
      (intInRange (x - y) →
        exec_sub st false = (.ok 0, { st with stack := .int (x - y) :: rest }) ∧
        exec_sub st true = (.ok 0, { st with stack := .int (x - y) :: rest })) ∧
      (¬intInRange (x - y) →
        exec_sub st false = (.error .integerOverflow, { st with stack := rest }) ∧
        exec_sub st true = (.ok 0, { st with stack := .nan :: rest }))) ∧
    (∀ (st : VmState) (x y : Int) (rest : Stack), st.stack = .int y :: .int x :: rest →
      (intInRange (y - x) →
        exec_subr st false = (.ok 0, { st with stack := .int (y - x) :: rest }) ∧
        exec_subr st true = (.ok 0, { st with stack := .int (y - x) :: rest })) ∧
      (¬intInRange (y - x) →
        exec_subr st false = (.error .integerOverflow, { st with stack := rest }) ∧
        exec_subr st true = (.ok 0, { st with stack := .nan :: rest }))) ∧
    (∀ (st : VmState) (x y : Int) (rest : Stack), st.stack = .int y :: .int x :: rest →
      (intInRange (x * y) →
        exec_mul st false = (.ok 0, { st with stack := .int (x * y) :: rest }) ∧
        exec_mul st true = (.ok 0, { st with stack := .int (x * y) :: rest })) ∧
      (¬intInRange (x * y) →
        exec_mul st false = (.error .integerOverflow, { st with stack := rest }) ∧
        exec_mul st true = (.ok 0, { st with stack := .nan :: rest }))) ∧
    (∀ (st : VmState) (x : Int) (rest : Stack), st.stack = .int x :: rest →
      (intInRange (-x) →
        exec_negate st false = (.ok 0, { st with stack := .int (-x) :: rest }) ∧
        exec_negate st true = (.ok 0, { st with stack := .int (-x) :: rest })) ∧
      (¬intInRange (-x) →
        exec_negate st false = (.error .integerOverflow, { st with stack := rest }) ∧
        exec_negate st true = (.ok 0, { st with stack := .nan :: rest }))) ∧
    (∀ (st : VmState) (x : Int) (rest : Stack), st.stack = .int x :: rest →
      (intInRange (x + 1) →
        exec_inc st false = (.ok 0, { st with stack := .int (x + 1) :: rest }) ∧
        exec_inc st true = (.ok 0, { st with stack := .int (x + 1) :: rest })) ∧
      (¬intInRange (x + 1) →
        exec_inc st false = (.error .integerOverflow, { st with stack := rest }) ∧
        exec_inc st true = (.ok 0, { st with stack := .nan :: rest }))) ∧
    (∀ (st : VmState) (x : Int) (rest : Stack), st.stack = .int x :: rest →
      (intInRange (x - 1) →
        exec_dec st false = (.ok 0, { st with stack := .int (x - 1) :: rest }) ∧
        exec_dec st true = (.ok 0, { st with stack := .int (x - 1) :: rest })) ∧
      (¬intInRange (x - 1) →
        exec_dec st false = (.error .integerOverflow, { st with stack := rest }) ∧
        exec_dec st true = (.ok 0, { st with stack := .nan :: rest }))) ∧
    (∀ (st : VmState) (x : Int) (rest : Stack) (y : Int), st.stack = .int x :: rest →
      (intInRange (x + y) →
        exec_addint st y false = (.ok 0, { st with stack := .int (x + y) :: rest }) ∧
        exec_addint st y true = (.ok 0, { st with stack := .int (x + y) :: rest })) ∧
      (¬intInRange (x + y) →
        exec_addint st y false = (.error .integerOverflow, { st with stack := rest }) ∧
        exec_addint st y true = (.ok 0, { st with stack := .nan :: rest }))) ∧
    (∀ (st : VmState) (x : Int) (rest : Stack) (y : Int), st.stack = .int x :: rest →
      (intInRange (x * y) →
        exec_mulint st y false = (.ok 0, { st with stack := .int (x * y) :: rest }) ∧
        exec_mulint st y true = (.ok 0, { st with stack := .int (x * y) :: rest })) ∧
      (¬intInRange (x * y) →
        exec_mulint st y false = (.error .integerOverflow, { st with stack := rest }) ∧
        exec_mulint st y true = (.ok 0, { st with stack := .nan :: rest }))) ∧
    codepage0.lookup 0xa00000 = .simple 0xa00000 0xa10000 8 (.add false) ∧
    codepage0.lookup 0xb7a000 = .simple 0xb7a000 0xb7a100 16 (.add true) ∧
    codepage0.lookup 0xa10000 = .simple 0xa10000 0xa20000 8 (.sub false) ∧
    codepage0.lookup 0xb7a100 = .simple 0xb7a100 0xb7a200 16 (.sub true) ∧
    codepage0.lookup 0xa20000 = .simple 0xa20000 0xa30000 8 (.subr false) ∧
    codepage0.lookup 0xb7a200 = .simple 0xb7a200 0xb7a300 16 (.subr true) ∧
    codepage0.lookup 0xa30000 = .simple 0xa30000 0xa40000 8 (.negate false) ∧
    codepage0.lookup 0xb7a300 = .simple 0xb7a300 0xb7a400 16 (.negate true) ∧
    codepage0.lookup 0xa40000 = .simple 0xa40000 0xa50000 8 (.inc false) ∧
    codepage0.lookup 0xb7a400 = .simple 0xb7a400 0xb7a500 16 (.inc true) ∧
    codepage0.lookup 0xa50000 = .simple 0xa50000 0xa60000 8 (.dec false) ∧
    codepage0.lookup 0xb7a500 = .simple 0xb7a500 0xb7a600 16 (.dec true) ∧
    codepage0.lookup 0xa60000 = .fixed 0xa60000 0xa70000 16 (.addInt false) ∧
    codepage0.lookup 0xb7a600 = .fixed 0xb7a600 0xb7a700 24 (.addInt true) ∧
    codepage0.lookup 0xa70000 = .fixed 0xa70000 0xa80000 16 (.mulInt false) ∧
    codepage0.lookup 0xb7a700 = .fixed 0xb7a700 0xb7a800 24 (.mulInt true) ∧
    codepage0.lookup 0xa80000 = .simple 0xa80000 0xa90000 8 (.mul false) ∧
    codepage0.lookup 0xb7a800 = .simple 0xb7a800 0xb7a900 16 (.mul true) := by
  refine ⟨?_, ?_, ?_, ?_, ?_, ?_, ?_, ?_, ?_, ?_⟩
  · intro st x y rest h
    simpa [exec_add] using execBinOp_spec st x y rest (fun a b => a + b) h
  · intro st x y rest h
    simpa [exec_sub] using execBinOp_spec st x y rest (fun a b => a - b) h
  · intro st x y rest h
    simpa [exec_subr] using execBinOp_spec st x y rest (fun a b => b - a) h
  · intro st x y rest h
    simpa [exec_mul] using execBinOp_spec st x y rest (fun a b => a * b) h
  · intro st x rest h
    simpa [exec_negate] using execUnOp_spec st x rest (fun a => -a) h
  · intro st x rest h
    simpa [exec_inc] using execUnOp_spec st x rest (fun a => a + 1) h
  · intro st x rest h
    simpa [exec_dec] using execUnOp_spec st x rest (fun a => a - 1) h
  · intro st x rest y h
    simpa [exec_addint] using execUnOp_spec st x rest (fun a => a + y) h
  · intro st x rest y h
    simpa [exec_mulint] using execUnOp_spec st x rest (fun a => a * y) h
  · -- the 18 table-lookup conjuncts, settled by evaluating the table
    decide

set_option maxRecDepth 4000 in
/-- Witness for C3 at concrete inputs: `ADD` on `[3, 4]` pushes 7; on two
copies of `2^255` the strict `ADD` overflows while `QADD` leaves NaN. -/
theorem claim_quiet_strict_duality_witness :
    exec_add (baseState CodeSlice.empty [.int 4, .int 3] 0) false
      = (.ok 0, { baseState CodeSlice.empty [.int 4, .int 3] 0 with
          stack := [.int 7] }) ∧
    exec_add (baseState CodeSlice.empty [.int (2 ^ 255), .int (2 ^ 255)] 0) false
      = (.error .integerOverflow,
        { baseState CodeSlice.empty [.int (2 ^ 255), .int (2 ^ 255)] 0 with
          stack := [] }) ∧
    exec_add (baseState CodeSlice.empty [.int (2 ^ 255), .int (2 ^ 255)] 0) true
      = (.ok 0, { baseState CodeSlice.empty [.int (2 ^ 255), .int (2 ^ 255)] 0 with
          stack := [.nan] }) := by
  have h1 := (claim_quiet_strict_duality.1
    (baseState CodeSlice.empty [.int 4, .int 3] 0) 3 4 [] rfl).1 (by decide)
  have h2 := (claim_quiet_strict_duality.1
    (baseState CodeSlice.empty [.int (2 ^ 255), .int (2 ^ 255)] 0)
    (2 ^ 255) (2 ^ 255) [] rfl).2 (by decide)
  refine ⟨?_, h2.1, h2.2⟩
  have := h1.1
  norm_num at this
  exact this

theorem add_opcode_eq (b : Opcodes) (op : Opcode) :
    (addChecksOk b.opcodes op.range.1 op.range.2 ∧
      b.add_opcode op = .ok { b with opcodes := insertEntry b.opcodes op.range.1 op }) ∨
    (¬addChecksOk b.opcodes op.range.1 op.range.2 ∧ ∃ msg, b.add_opcode op = .error msg) := by
  unfold Opcodes.add_opcode addChecksOk
  rcases hnext : (b.opcodes.dropWhile (fun e => e.1 < op.range.1)).head? with _ | other <;>
    rcases hprev : (b.opcodes.takeWhile (fun e => e.1 ≤ op.range.1)).getLast? with _ | prev <;>
      simp only [hnext, hprev]
  · exact Or.inl ⟨⟨trivial, trivial⟩, rfl⟩
  · by_cases h2 : prev.2.range.2 ≤ op.range.1
    · rw [if_pos h2]
      exact Or.inl ⟨⟨trivial, h2⟩, rfl⟩
    · rw [if_neg h2]
      exact Or.inr ⟨fun h => h2 h.2, "Opcode overlaps with prev max", rfl⟩
  · by_cases h1 : op.range.2 ≤ other.1
    · rw [if_pos h1]
      exact Or.inl ⟨⟨h1, trivial⟩, rfl⟩
    · rw [if_neg h1]
      exact Or.inr ⟨fun h => h1 h.1, "Opcode overlaps with next min", rfl⟩
  · by_cases h1 : op.range.2 ≤ other.1
    · rw [if_pos h1]
      by_cases h2 : prev.2.range.2 ≤ op.range.1
      · rw [if_pos h2]
        exact Or.inl ⟨⟨h1, h2⟩, rfl⟩
      · rw [if_neg h2]
        exact Or.inr ⟨fun h => h2 h.2, "Opcode overlaps with prev max", rfl⟩
    · rw [if_neg h1]
      exact Or.inr ⟨fun h => h1 h.1, "Opcode overlaps with next min", rfl⟩

theorem chained_cons (lo k : Nat) (op : Opcode) (rest : List (Nat × Opcode)) :
    entriesChained lo ((k, op) :: rest) = true ↔
      lo ≤ k ∧ k = op.range.1 ∧ op.range.1 < op.range.2 ∧ op.range.2 ≤ MAX_OPCODE ∧
      entriesChained op.range.2 rest = true := by
  simp [entriesChained, Bool.and_eq_true, decide_eq_true_eq, and_assoc]

theorem chained_mem {lo : Nat} {l : List (Nat × Opcode)}
    (h : entriesChained lo l = true) :
    ∀ e ∈ l, lo ≤ e.1 ∧ e.1 = e.2.range.1 ∧ e.2.range.1 < e.2.range.2 ∧
      e.2.range.2 ≤ MAX_OPCODE := by
  induction l generalizing lo with
  | nil => simp
  | cons hd tl ih =>
    rcases hd with ⟨k, op⟩
    rw [chained_cons] at h
    obtain ⟨hlok, hkeq, hvalid, hmax, hrest⟩ := h
    intro e he
    rcases List.mem_cons.1 he with rfl | he'
    · exact ⟨hlok, hkeq, hvalid, hmax⟩
    · have := ih hrest e he'
      refine ⟨?_, this.2⟩
      have : op.range.2 ≤ e.1 := (ih hrest e he').1
      omega

theorem checks_iff_disjoint {mn mx : Nat} (hmn : mn < mx) :
    ∀ (l : List (Nat × Opcode)) (lo : Nat), entriesChained lo l = true →
    (addChecksOk l mn mx ↔ ∀ e ∈ l, rangesDisjoint e.2.range (mn, mx)) := by
  intro l
  induction l with
  | nil =>
    intro lo _
    simp [addChecksOk]
  | cons hd tl ih =>
    intro lo h
    rcases hd with ⟨k, op⟩
    rw [chained_cons] at h
    obtain ⟨hlok, hkeq, hvalid, hmax, hrest⟩ := h
    have ihtl := ih op.range.2 hrest
    rcases lt_trichotomy k mn with hk | hk | hk
    · -- k < mn: the head entry sits in the takeWhile prefix
      have hdrop : (((k, op) :: tl).dropWhile (fun e => e.1 < mn))
          = tl.dropWhile (fun e => e.1 < mn) := by
        simp [List.dropWhile_cons, hk]
      have htake : (((k, op) :: tl).takeWhile (fun e => e.1 ≤ mn))
          = (k, op) :: tl.takeWhile (fun e => e.1 ≤ mn) := by
        simp [List.takeWhile_cons]
        omega
      have hdisj_head_iff : rangesDisjoint op.range (mn, mx) ↔ op.range.2 ≤ mn := by
        unfold rangesDisjoint
        constructor
        · rintro (h | h)
          · exact h
          · omega
        · exact Or.inl
      rcases htw : tl.takeWhile (fun e => e.1 ≤ mn) with _ | ⟨tw0, twrest⟩
      · -- prev is the head entry itself
        unfold addChecksOk
        rw [hdrop, htake, htw]
        unfold addChecksOk at ihtl
        rw [htw] at ihtl
        simp only [List.getLast?_singleton]
        simp only [List.getLast?_nil] at ihtl
        constructor
        · rintro ⟨hnx, hpv⟩
          intro e he
          rcases List.mem_cons.1 he with rfl | he'
          · exact hdisj_head_iff.2 hpv
          · exact (ihtl.1 ⟨hnx, trivial⟩) e he'
        · intro hall
          refine ⟨?_, hdisj_head_iff.1 (hall (k, op) (List.mem_cons_self _ _))⟩
          exact (ihtl.2 fun e he => hall e (List.mem_cons_of_mem _ he)).1
      · -- prev is the last entry of the tail prefix; the head entry is
        -- disjoint automatically via the chain
        obtain ⟨t0, trest, rfl⟩ : ∃ t0 trest, tl = t0 :: trest := by
          cases tl with
          | nil => simp at htw
          | cons a b => exact ⟨a, b, rfl⟩
        have hheadfree : op.range.2 ≤ mn := by
          rcases t0 with ⟨tk, tov⟩
          rw [List.takeWhile_cons] at htw
          by_cases hp : tk ≤ mn
          · rw [chained_cons] at hrest
            omega
          · simp [hp] at htw
        unfold addChecksOk
        rw [hdrop, htake, htw]
        unfold addChecksOk at ihtl
        rw [htw] at ihtl
        rw [List.getLast?_cons_cons]
        constructor
        · rintro ⟨hnx, hpv⟩
          intro e he
          rcases List.mem_cons.1 he with rfl | he'
          · exact hdisj_head_iff.2 hheadfree
          · exact (ihtl.1 ⟨hnx, hpv⟩) e he'
        · intro hall
          exact ihtl.2 fun e he => hall e (List.mem_cons_of_mem _ he)
    · -- k = mn: the next-min check necessarily fails, and the head entry
      -- necessarily intersects
      have hdrop : (((k, op) :: tl).dropWhile (fun e => e.1 < mn))
          = (k, op) :: tl := by
        simp [List.dropWhile_cons]
        omega
      apply iff_of_false
      · rintro ⟨hnx, _⟩
        rw [hdrop] at hnx
        simp only [List.head?_cons] at hnx
        have hnx' : mx ≤ k := hnx
        omega
      · intro hall
        have hd := hall (k, op) (List.mem_cons_self _ _)
        have hd' : op.range.2 ≤ mn ∨ mx ≤ op.range.1 := hd
        rcases hd' with h | h <;> omega
    · -- k > mn: the head is the next entry; the tail is disjoint for free
      unfold addChecksOk
      have hdrop : (((k, op) :: tl).dropWhile (fun e => e.1 < mn))
          = (k, op) :: tl := by
        simp [List.dropWhile_cons]
        omega
      have htake : (((k, op) :: tl).takeWhile (fun e => e.1 ≤ mn)) = [] := by
        simp [List.takeWhile_cons]
        omega
      rw [hdrop, htake]
      simp only [List.head?_cons, List.getLast?_nil]
      constructor
      · rintro ⟨hnx, _⟩
        have hnx' : mx ≤ k := hnx
        intro e he
        rcases List.mem_cons.1 he with rfl | he'
        · exact Or.inr (show mx ≤ op.range.1 by omega)
        · have := chained_mem hrest e he'
          exact Or.inr (by omega)
      · intro hall
        have hd := hall (k, op) (List.mem_cons_self _ _)
        have hd' : op.range.2 ≤ mn ∨ mx ≤ op.range.1 := hd
        refine ⟨?_, trivial⟩
        exact (show mx ≤ k by rcases hd' with h | h <;> omega)

theorem insert_chained (op : Opcode) :
    ∀ (l : List (Nat × Opcode)) (lo : Nat), entriesChained lo l = true →
      lo ≤ op.range.1 → op.range.1 < op.range.2 → op.range.2 ≤ MAX_OPCODE →
      addChecksOk l op.range.1 op.range.2 →
      entriesChained lo (insertEntry l op.range.1 op) = true := by
  intro l
  induction l with
  | nil =>
    intro lo _ hlo hv hmx _
    unfold insertEntry
    rw [chained_cons]
    exact ⟨hlo, rfl, hv, hmx, rfl⟩
  | cons hd tl ih =>
    intro lo h hlo hv hmx hchecks
    rcases hd with ⟨k, op'⟩
    rw [chained_cons] at h
    obtain ⟨hlok, hkeq, hvalid, hmax, hrest⟩ := h
    unfold insertEntry
    rcases lt_trichotomy op.range.1 k with hk | hk | hk
    · rw [if_pos hk]
      -- next entry in the builder map is (k, op'), so range.2 ≤ k
      have hnext : op.range.2 ≤ k := by
        have hdrop : (((k, op') :: tl).dropWhile (fun e => e.1 < op.range.1))
            = (k, op') :: tl := by
          simp [List.dropWhile_cons]
          omega
        obtain ⟨hnx, _⟩ := hchecks
        rw [hdrop] at hnx
        simp only [List.head?_cons] at hnx
        exact hnx
      rw [chained_cons]
      refine ⟨hlo, rfl, hv, hmx, ?_⟩
      rw [chained_cons]
      exact ⟨hnext, hkeq, hvalid, hmax, hrest⟩
    · -- an equal key cannot pass the next-min check
      exfalso
      have hdrop : (((k, op') :: tl).dropWhile (fun e => e.1 < op.range.1))
          = (k, op') :: tl := by
        simp [List.dropWhile_cons]
        omega
      obtain ⟨hnx, _⟩ := hchecks
      rw [hdrop] at hnx
      simp only [List.head?_cons] at hnx
      have hnx' : op.range.2 ≤ k := hnx
      omega
    · rw [if_neg (by omega), if_neg (by omega)]
      rw [chained_cons]
      refine ⟨hlok, hkeq, hvalid, hmax, ?_⟩
      -- recurse on the tail: the previous entry ends before the new range
      have hprev : op'.range.2 ≤ op.range.1 := by
        obtain ⟨_, hpv⟩ := hchecks
        have htake : (((k, op') :: tl).takeWhile (fun e => e.1 ≤ op.range.1))
            = (k, op') :: tl.takeWhile (fun e => e.1 ≤ op.range.1) := by
          simp [List.takeWhile_cons]
          omega
        rw [htake] at hpv
        rcases htw : tl.takeWhile (fun e => e.1 ≤ op.range.1) with _ | ⟨tw0, twrest⟩
        · rw [htw, List.getLast?_singleton] at hpv
          exact hpv
        · obtain ⟨t0, trest, rfl⟩ : ∃ t0 trest, tl = t0 :: trest := by
            cases tl with
            | nil => simp at htw
            | cons a b => exact ⟨a, b, rfl⟩
          rcases t0 with ⟨tk, tov⟩
          rw [List.takeWhile_cons] at htw
          by_cases hp : tk ≤ op.range.1
          · rw [chained_cons] at hrest
            omega
          · simp [hp] at htw
      apply ih op'.range.2 hrest hprev hv hmx
      -- the checks restricted to the tail
      obtain ⟨hnx, hpv⟩ := hchecks
      constructor
      · have hdrop : (((k, op') :: tl).dropWhile (fun e => e.1 < op.range.1))
            = tl.dropWhile (fun e => e.1 < op.range.1) := by
          simp [List.dropWhile_cons]
          omega
        rw [hdrop] at hnx
        exact hnx
      · have htake : (((k, op') :: tl).takeWhile (fun e => e.1 ≤ op.range.1))
            = (k, op') :: tl.takeWhile (fun e => e.1 ≤ op.range.1) := by
          simp [List.takeWhile_cons]
          omega
        rw [htake] at hpv
        rcases htw : tl.takeWhile (fun e => e.1 ≤ op.range.1) with _ | ⟨tw0, twrest⟩
        · rw [htw]
          trivial
        · rw [htw, List.getLast?_cons_cons] at hpv
          rw [htw]
          exact hpv

theorem checks_fresh {l : List (Nat × Opcode)} {lo mn mx : Nat}
    (hch : entriesChained lo l = true) (hmn : mn < mx)
    (hchecks : addChecksOk l mn mx) :
    ∀ e ∈ l, e.1 ≠ mn := by
  intro e he
  have hdisj := (checks_iff_disjoint hmn l lo hch).1 hchecks e he
  have hm := chained_mem hch e he
  unfold rangesDisjoint at hdisj
  rcases hdisj with h | h <;> omega

theorem insert_mem {l : List (Nat × Opcode)} {k : Nat} {op : Opcode}
    (hfresh : ∀ e ∈ l, e.1 ≠ k) :
    ∀ x, x ∈ insertEntry l k op ↔ x = (k, op) ∨ x ∈ l := by
  induction l with
  | nil => simp [insertEntry]
  | cons e rest ih =>
    intro x
    unfold insertEntry
    rcases lt_trichotomy k e.1 with hk | hk | hk
    · rw [if_pos hk]
      simp [or_assoc]
    · exact absurd hk.symm (hfresh e (List.mem_cons_self _ _))
    · rw [if_neg (by omega), if_neg (by omega)]
      have := ih (fun e he => hfresh e (List.mem_cons_of_mem _ he)) x
      simp only [List.mem_cons, this]
      tauto

theorem foldAdd_inv :
    ∀ (ops : List Opcode) (b b' : Opcodes),
      entriesChained 0 b.opcodes = true →
      (∀ op ∈ ops, op.range.1 < op.range.2 ∧ op.range.2 ≤ MAX_OPCODE) →
      List.foldlM Opcodes.add_opcode b ops = .ok b' →
      entriesChained 0 b'.opcodes = true ∧
      (∀ x, x ∈ b'.opcodes ↔ x ∈ b.opcodes ∨ (x.2 ∈ ops ∧ x.1 = x.2.range.1)) := by
  intro ops
  induction ops with
  | nil =>
    intro b b' hch _ hfold
    simp only [List.foldlM_nil] at hfold
    cases hfold
    exact ⟨hch, by simp⟩
  | cons op rest ih =>
    intro b b' hch hv hfold
    rw [List.foldlM_cons] at hfold
    have hvop := hv op (List.mem_cons_self _ _)
    rcases add_opcode_eq b op with ⟨hchecks, heq⟩ | ⟨_, msg, heq⟩
    · rw [heq] at hfold
      have hfold2 : List.foldlM Opcodes.add_opcode
          { b with opcodes := insertEntry b.opcodes op.range.1 op } rest
          = .ok b' := hfold
      have hch1 : entriesChained 0 (insertEntry b.opcodes op.range.1 op) = true :=
        insert_chained op b.opcodes 0 hch (Nat.zero_le _) hvop.1 hvop.2 hchecks
      have hfresh := checks_fresh hch hvop.1 hchecks
      have hmem := @insert_mem _ _ op hfresh
      obtain ⟨hch', hmem'⟩ := ih _ b' hch1
        (fun o ho => hv o (List.mem_cons_of_mem _ ho)) hfold2
      refine ⟨hch', fun x => ?_⟩
      rw [hmem' x]
      simp only [hmem x]
      constructor
      · rintro ((rfl | hx) | ⟨hx2, hx1⟩)
        · exact Or.inr ⟨List.mem_cons_self _ _, rfl⟩
        · exact Or.inl hx
        · exact Or.inr ⟨List.mem_cons_of_mem _ hx2, hx1⟩
      · rintro (hx | ⟨hx2, hx1⟩)
        · exact Or.inl (Or.inr hx)
        · rcases List.mem_cons.1 hx2 with heq2 | hx2'
          · refine Or.inl (Or.inl ?_)
            rcases x with ⟨xk, xop⟩
            simp only at heq2 hx1
            rw [heq2] at hx1 ⊢
            rw [hx1]
          · exact Or.inr ⟨hx2', hx1⟩
    · rw [heq] at hfold
      exact Except.noConfusion hfold

theorem gapless_cons (lo k : Nat) (op : Opcode) (rest : List (Nat × Opcode)) :
    entriesGapless lo ((k, op) :: rest) = true ↔
      k = lo ∧ op.range.1 = lo ∧ lo < op.range.2 ∧
      entriesGapless op.range.2 rest = true := by
  simp [entriesGapless, and_assoc]

theorem build_gapless :
    ∀ (l : List (Nat × Opcode)) (lo : Nat), entriesChained lo l = true →
      lo ≤ MAX_OPCODE → entriesGapless lo (buildEntries lo l) = true := by
  intro l
  induction l with
  | nil =>
    intro lo _ hle
    unfold buildEntries
    by_cases h : lo < MAX_OPCODE
    · rw [if_pos h]
      rw [gapless_cons]
      exact ⟨rfl, rfl, h, by simp [entriesGapless, Opcode.range]⟩
    · rw [if_neg h]
      simp [entriesGapless]
      omega
  | cons hd tl ih =>
    intro lo h hle
    rcases hd with ⟨k, op⟩
    rw [chained_cons] at h
    obtain ⟨hlok, hkeq, hvalid, hmax, hrest⟩ := h
    unfold buildEntries
    by_cases hgap : op.range.1 > lo
    · rw [if_pos hgap]
      simp only [List.cons_append, List.nil_append]
      rw [gapless_cons]
      refine ⟨rfl, rfl, hgap, ?_⟩
      rw [gapless_cons]
      exact ⟨hkeq, rfl, hvalid, ih op.range.2 hrest hmax⟩
    · rw [if_neg hgap]
      simp only [List.nil_append]
      rw [gapless_cons]
      have h1 : op.range.1 = lo := by omega
      refine ⟨by omega, h1, by omega, ?_⟩
      exact ih op.range.2 hrest hmax

theorem gapless_key0 {lo : Nat} {l : List (Nat × Opcode)}
    (h : entriesGapless lo l = true) (hne : l ≠ []) : keyAt l 0 = lo := by
  cases l with
  | nil => exact absurd rfl hne
  | cons hd tl =>
    rcases hd with ⟨k, op⟩
    rw [gapless_cons] at h
    simpa [keyAt] using h.1

theorem gapless_struct {l : List (Nat × Opcode)} :
    ∀ (lo : Nat), entriesGapless lo l = true → ∀ n, n < l.length →
      (l.getD n (0, .dummy 0 0)).2.range.1 = keyAt l n ∧
      (l.getD n (0, .dummy 0 0)).2.range.2
        = (if n + 1 < l.length then keyAt l (n + 1) else MAX_OPCODE) ∧
      keyAt l n < (l.getD n (0, .dummy 0 0)).2.range.2 := by
  induction l with
  | nil => intro lo _ n hn; simp at hn
  | cons hd tl ih =>
    intro lo h n hn
    rcases hd with ⟨k, op⟩
    rw [gapless_cons] at h
    obtain ⟨hk, hr1, hr2, hrest⟩ := h
    cases n with
    | zero =>
      simp only [List.getD_cons_zero, keyAt, List.length_cons]
      refine ⟨by rw [hr1, hk], ?_, by omega⟩
      cases tl with
      | nil =>
        simp only [List.length_nil]
        rw [if_neg (by omega)]
        have : entriesGapless op.range.2 [] = true := hrest
        simpa [entriesGapless] using this
      | cons t0 trest =>
        rw [if_pos (by simp)]
        have hko := gapless_key0 hrest (by simp)
        simp only [keyAt, List.getD_cons_succ, List.getD_cons_zero] at hko ⊢
        omega
    | succ m =>
      simp only [List.getD_cons_succ, List.length_cons] at *
      have := ih op.range.2 hrest m (by omega)
      refine ⟨this.1, ?_, this.2.2⟩
      rcases this with ⟨_, h2, _⟩
      simp only [keyAt, List.getD_cons_succ]
      rw [h2]
      by_cases hlt : m + 1 < tl.length
      · rw [if_pos hlt, if_pos (by omega)]
        rfl
      · rw [if_neg hlt, if_neg (by omega)]

theorem gapless_keys_mono {l : List (Nat × Opcode)} {lo : Nat}
    (h : entriesGapless lo l = true) :
    ∀ m n, m < n → n < l.length → keyAt l m < keyAt l n := by
  intro m n
  induction n with
  | zero => omega
  | succ n' ihn =>
    intro hmn hlen
    have hstep : keyAt l n' < keyAt l (n' + 1) := by
      have hs := gapless_struct lo h n' (by omega)
      rcases hs with ⟨_, h2, h3⟩
      rw [if_pos (by omega)] at h2
      omega
    rcases Nat.lt_or_ge m n' with hm | hm
    · exact lt_trans (ihn hm (by omega)) hstep
    · have : m = n' := by omega
      rw [this]
      exact hstep

theorem lookupStep_spec (l : List (Nat × Opcode)) (opcode : Nat) :
    ∀ (fuel i j : Nat), i < j → j ≤ l.length → j - i ≤ fuel + 1 →
      keyAt l i ≤ opcode → (opcode < keyAt l j ∨ j = l.length) →
      i ≤ lookupStep l opcode fuel i j ∧ lookupStep l opcode fuel i j < j ∧
      keyAt l (lookupStep l opcode fuel i j) ≤ opcode ∧
      (opcode < keyAt l (lookupStep l opcode fuel i j + 1) ∨
        lookupStep l opcode fuel i j + 1 = l.length) := by
  intro fuel
  induction fuel with
  | zero =>
    intro i j hij hjlen hfuel hki hkj
    have hj : j = i + 1 := by omega
    subst hj
    unfold lookupStep
    exact ⟨le_refl _, by omega, hki, by tauto⟩
  | succ fuel ih =>
    intro i j hij hjlen hfuel hki hkj
    unfold lookupStep
    by_cases hgt : j - i > 1
    · rw [if_pos hgt]
      simp only []
      by_cases hcmp : keyAt l ((j + i) / 2) ≤ opcode
      · rw [if_pos hcmp]
        have hik : i < (j + i) / 2 := by omega
        have hkj' : (j + i) / 2 < j := by omega
        have := ih ((j + i) / 2) j hkj' hjlen (by omega) hcmp hkj
        exact ⟨by omega, this.2⟩
      · rw [if_neg hcmp]
        have hik : i < (j + i) / 2 := by omega
        have hkj' : (j + i) / 2 < j := by omega
        have := ih i ((j + i) / 2) hik (by omega) (by omega) hki
          (Or.inl (by omega))
        exact ⟨this.1, by omega, this.2.2⟩
    · rw [if_neg hgt]
      have hj : j = i + 1 := by omega
      subst hj
      exact ⟨le_refl _, by omega, hki, by tauto⟩

theorem lookup_covers {cpid : Nat} {l : List (Nat × Opcode)}
    (h : entriesGapless 0 l = true) (opcode : Nat) (hop : opcode < MAX_OPCODE) :
    ∃ r, r < l.length ∧
      DispatchTable.lookup ⟨cpid, l⟩ opcode = (l.getD r (0, .dummy 0 0)).2 ∧
      (l.getD r (0, .dummy 0 0)).2.range.1 ≤ opcode ∧
      opcode < (l.getD r (0, .dummy 0 0)).2.range.2 := by
  have hne : l ≠ [] := by
    intro he
    rw [he] at h
    simp [entriesGapless, MAX_OPCODE, MAX_OPCODE_BITS] at h
  have hlen : 0 < l.length := List.length_pos.2 hne
  have hkey0 : keyAt l 0 = 0 := gapless_key0 h hne
  have hspec := lookupStep_spec l opcode l.length 0 l.length hlen (le_refl _)
    (by omega) (by omega) (Or.inr rfl)
  set r := lookupStep l opcode l.length 0 l.length with hr
  obtain ⟨_, hrlen, hkr, hnext⟩ := hspec
  have hs := gapless_struct 0 h r hrlen
  obtain ⟨hs1, hs2, _⟩ := hs
  refine ⟨r, hrlen, ?_, by omega, ?_⟩
  · unfold DispatchTable.lookup
    rw [List.getD_eq_getElem?_getD, List.getD_eq_getElem?_getD]
    simp [List.getElem?_eq_getElem hrlen]
  · by_cases hrl : r + 1 < l.length
    · rw [if_pos hrl] at hs2
      rcases hnext with hn | hn
      · omega
      · omega
    · rw [if_neg hrl] at hs2
      omega

theorem lookup_eq_of_contains {cpid : Nat} {l : List (Nat × Opcode)}
    (h : entriesGapless 0 l = true) {opcode : Nat} (hop : opcode < MAX_OPCODE)
    {k : Nat} {e : Opcode} (hmem : (k, e) ∈ l)
    (h1 : e.range.1 ≤ opcode) (h2 : opcode < e.range.2) :
    DispatchTable.lookup ⟨cpid, l⟩ opcode = e := by
  obtain ⟨r, hrlen, hlook, hc1, hc2⟩ := @lookup_covers cpid _ h opcode hop
  obtain ⟨n, hn, hget⟩ := List.mem_iff_getElem.1 hmem
  have hgetD : l.getD n (0, .dummy 0 0) = (k, e) := by
    rw [List.getD_eq_getElem?_getD, List.getElem?_eq_getElem hn, hget]
    rfl
  have huniq : n = r := by
    -- two containing entries coincide: otherwise the later range starts
    -- after the earlier one ends
    by_contra hne'
    rcases Nat.lt_or_ge n r with hlt | hge
    · -- n < r: opcode < range2 n = keyAt (n+1) ≤ keyAt r = range1 r ≤ opcode
      have hsn := gapless_struct 0 h n hn
      have hsr := gapless_struct 0 h r hrlen
      rw [if_pos (by omega)] at hsn
      have hmono : n + 1 = r ∨ keyAt l (n + 1) < keyAt l r := by
        rcases Nat.lt_or_ge (n + 1) r with hx | hx
        · exact Or.inr (gapless_keys_mono h (n + 1) r hx hrlen)
        · exact Or.inl (by omega)
      rw [hgetD] at hsn
      have hsn2 : e.range.1 = keyAt l n ∧ e.range.2 = keyAt l (n + 1)
          ∧ keyAt l n < e.range.2 := hsn
      rcases hmono with hm | hm
      · have hkk : keyAt l (n + 1) = keyAt l r := by rw [hm]
        omega
      · omega
    · have hlt : r < n := by omega
      have hsr := gapless_struct 0 h r hrlen
      have hsn := gapless_struct 0 h n hn
      rw [if_pos (by omega)] at hsr
      have hmono : r + 1 = n ∨ keyAt l (r + 1) < keyAt l n := by
        rcases Nat.lt_or_ge (r + 1) n with hx | hx
        · exact Or.inr (gapless_keys_mono h (r + 1) n hx hn)
        · exact Or.inl (by omega)
      rw [hgetD] at hsn
      have hsn2 : e.range.1 = keyAt l n := hsn.1
      rcases hmono with hm | hm
      · have hkk : keyAt l (r + 1) = keyAt l n := by rw [hm]
        omega
      · omega
  rw [hlook, ← huniq, hgetD]

/-- C1: for every dispatch table produced by the builder — any sequence of
successful `add_opcode` calls (with well-formed 24-bit ranges) followed by
`build` — and every opcode in `[0, 2^24)`, `lookup` returns a handler whose
range `(min, max)` satisfies `min ≤ opcode < max`; moreover that handler is
the unique table entry whose range contains the opcode (the one with the
largest `range_start ≤ opcode`), so every opcode resolves to exactly one
handler. -/
theorem claim_dispatch_coverage (cpid : Nat) (ops : List Opcode) (b : Opcodes)
    (hvalid : ∀ op ∈ ops, op.range.1 < op.range.2 ∧ op.range.2 ≤ MAX_OPCODE)
    (hadd : List.foldlM Opcodes.add_opcode (DispatchTable.builder cpid) ops = .ok b)
    (opcode : Nat) (hop : opcode < MAX_OPCODE) :
    ((b.build.lookup opcode).range.1 ≤ opcode ∧
      opcode < (b.build.lookup opcode).range.2) ∧
    (∀ e ∈ b.build.opcodes, e.2.range.1 ≤ opcode → opcode < e.2.range.2 →
      e.2 = b.build.lookup opcode) := by
  have hinv := foldAdd_inv ops (DispatchTable.builder cpid) b rfl hvalid hadd
  have hgap : entriesGapless 0 (buildEntries 0 b.opcodes) = true :=
    build_gapless b.opcodes 0 hinv.1 (Nat.zero_le _)
  obtain ⟨r, hrlen, hlook, hc1, hc2⟩ := @lookup_covers b.id _ hgap opcode hop
  have hbuild : b.build = (⟨b.id, buildEntries 0 b.opcodes⟩ : DispatchTable) := rfl
  constructor
  · rw [hbuild, hlook]
    exact ⟨hc1, hc2⟩
  · intro e he h1 h2
    rcases e with ⟨k, eop⟩
    rw [hbuild] at he ⊢
    exact (lookup_eq_of_contains hgap hop he h1 h2).symm

/-- C5: for a builder reached by successful adds, a further `add_opcode`
whose derived range intersects a previously registered range fails, while
one whose range is disjoint from every previously registered range
succeeds. -/
theorem claim_overlap_rejection (cpid : Nat) (ops : List Opcode) (b : Opcodes)
    (op : Opcode)
    (hvalid : ∀ o ∈ ops, o.range.1 < o.range.2 ∧ o.range.2 ≤ MAX_OPCODE)
    (hop : op.range.1 < op.range.2)
    (hadd : List.foldlM Opcodes.add_opcode (DispatchTable.builder cpid) ops = .ok b) :
    ((∃ o ∈ ops, ¬rangesDisjoint o.range op.range) →
      ∃ msg, b.add_opcode op = .error msg) ∧
    ((∀ o ∈ ops, rangesDisjoint o.range op.range) →
      ∃ b', b.add_opcode op = .ok b') := by
  have hinv := foldAdd_inv ops (DispatchTable.builder cpid) b rfl hvalid hadd
  have hch := hinv.1
  have hmem := hinv.2
  have hiff := checks_iff_disjoint hop b.opcodes 0 hch
  constructor
  · rintro ⟨o, ho, hno⟩
    rcases add_opcode_eq b op with ⟨hchecks, _⟩ | ⟨_, msg, heq⟩
    · exfalso
      have hoin : (o.range.1, o) ∈ b.opcodes :=
        (hmem (o.range.1, o)).2 (Or.inr ⟨ho, rfl⟩)
      have hdisj := hiff.1 hchecks (o.range.1, o) hoin
      have hdisj2 : rangesDisjoint o.range op.range := hdisj
      exact hno hdisj2
    · exact ⟨msg, heq⟩
  · intro hall
    rcases add_opcode_eq b op with ⟨_, heq⟩ | ⟨hnochecks, _, _⟩
    · exact ⟨_, heq⟩
    · exfalso
      apply hnochecks
      apply hiff.2
      intro e he
      rcases (hmem e).1 he with h0 | ⟨heo, _⟩
      · simp [DispatchTable.builder] at h0
      · exact hall e.2 heo

/-- Witness for C1 at a concrete table: one registered entry covering
`[0xab0000, 0xac0000)`; after build, opcode `0xab1234` resolves to a handler
whose range contains it. -/
theorem claim_dispatch_coverage_witness :
    ((Opcodes.build { id := 0, opcodes :=
        [(0xab0000, Opcode.simple 0xab0000 0xac0000 8 (.add false))] }).lookup
          0xab1234).range.1 ≤ 0xab1234 ∧
    0xab1234 < ((Opcodes.build { id := 0, opcodes :=
        [(0xab0000, Opcode.simple 0xab0000 0xac0000 8 (.add false))] }).lookup
          0xab1234).range.2 := by
  have h := claim_dispatch_coverage 0
    [Opcode.simple 0xab0000 0xac0000 8 (.add false)]
    { id := 0, opcodes := [(0xab0000, Opcode.simple 0xab0000 0xac0000 8 (.add false))] }
    (by decide) (by rfl) 0xab1234 (by decide)
  exact h.1

/-- Witness for C5 at a concrete builder: with `[0xab0000, 0xac0000)`
registered, adding the intersecting `[0xab8000, 0xac8000)` fails while
adding the disjoint `[0xac0000, 0xad0000)` succeeds. -/
theorem claim_overlap_rejection_witness :
    (∃ msg, Opcodes.add_opcode
      { id := 0, opcodes := [(0xab0000, Opcode.simple 0xab0000 0xac0000 8 (.add false))] }
      (Opcode.simple 0xab8000 0xac8000 16 (.sub false)) = .error msg) ∧
    (∃ b', Opcodes.add_opcode
      { id := 0, opcodes := [(0xab0000, Opcode.simple 0xab0000 0xac0000 8 (.add false))] }
      (Opcode.simple 0xac0000 0xad0000 8 (.sub false)) = .ok b') := by
  constructor
  · exact (claim_overlap_rejection 0
      [Opcode.simple 0xab0000 0xac0000 8 (.add false)]
      { id := 0, opcodes := [(0xab0000, Opcode.simple 0xab0000 0xac0000 8 (.add false))] }
      (Opcode.simple 0xab8000 0xac8000 16 (.sub false))
      (by decide) (by decide) (by rfl)).1 (by decide)
  · exact (claim_overlap_rejection 0
      [Opcode.simple 0xab0000 0xac0000 8 (.add false)]
      { id := 0, opcodes := [(0xab0000, Opcode.simple 0xab0000 0xac0000 8 (.add false))] }
      (Opcode.simple 0xac0000 0xad0000 8 (.sub false))
      (by decide) (by decide) (by rfl)).2 (by decide)

theorem natToBits_length (w n : Nat) : (natToBits w n).length = w := by
  induction w generalizing n with
  | zero => simp [natToBits]
  | succ w ih => simp [natToBits, ih]

theorem bitsToNat_append_bit (l : List Bool) (b : Bool) :
    bitsToNat (l ++ [b]) = 2 * bitsToNat l + (if b then 1 else 0) := by
  simp [bitsToNat, List.foldl_append]

theorem bitsToNat_natToBits (w n : Nat) : bitsToNat (natToBits w n) = n % 2 ^ w := by
  induction w generalizing n with
  | zero => simp [natToBits, bitsToNat, Nat.mod_one]
  | succ w ih =>
    rw [natToBits, bitsToNat_append_bit, ih]
    have hsplit : n % 2 ^ (w + 1) = n % 2 + 2 * (n / 2 % 2 ^ w) := by
      rw [pow_succ']
      exact Nat.mod_mul
    have hbit : (if decide (n % 2 = 1) = true then 1 else 0) = n % 2 := by
      rcases Nat.mod_two_eq_zero_or_one n with h | h <;> simp [h]
    omega

theorem step_fixed_eval (st : VmState) (w v emin emax : Nat) (ex : InstrExec)
    (hcp : st.cp = codepage0)
    (hbits : st.code.bits = natToBits w v)
    (hw : 0 < w) (hw24 : w ≤ 24)
    (hv : v < 2 ^ w)
    (hmem : (emin, Opcode.fixed emin emax w ex) ∈ codepage0.opcodes)
    (h1 : emin ≤ v <<< (24 - w)) (h2 : v <<< (24 - w) < emax)
    (hgas : 10 + w ≤ st.gas.gas_remaining) :
    st.step = runInstr ex v w
      { st with
        steps := st.steps + 1
        code := { st.code with bits := [] }
        gas := { st.gas with gas_remaining := st.gas.gas_remaining - (10 + w) } } := by
  have hlen : st.code.bits.length = w := by rw [hbits, natToBits_length]
  have hne : st.code.bits ≠ [] := by
    intro h
    rw [h] at hlen
    simp at hlen
    omega
  have hgapless : entriesGapless 0 codepage0.opcodes = true := by decide
  have hopmax : v <<< (24 - w) < MAX_OPCODE := by
    rw [Nat.shiftLeft_eq]
    have hpow : 2 ^ w * 2 ^ (24 - w) = 2 ^ 24 := by
      rw [← pow_add]
      congr 1
      omega
    have hmul := Nat.mul_lt_mul_of_lt_of_le hv (le_refl (2 ^ (24 - w)))
      (Nat.pos_pow_of_pos _ (by omega))
    unfold MAX_OPCODE MAX_OPCODE_BITS
    rw [Nat.shiftLeft_eq, one_mul]
    omega
  have hlook : DispatchTable.lookup codepage0 (v <<< (24 - w))
      = Opcode.fixed emin emax w ex :=
    @lookup_eq_of_contains codepage0.id _ hgapless _ hopmax _ _ hmem h1 h2
  unfold VmState.step
  rw [if_pos hne]
  unfold DispatchTable.dispatch getOpcodeFromSlice
  simp only [hbits, natToBits_length, MAX_OPCODE_BITS]
  rw [Nat.min_eq_right hw24]
  rw [List.take_of_length_le (le_of_eq (natToBits_length w v))]
  rw [bitsToNat_natToBits, Nat.mod_eq_of_lt hv]
  rw [hcp, hlook]
  unfold execOpcode
  unfold GasConsumer.try_consume
  simp only [GAS_PER_INSTRUCTION, GAS_PER_BIT, mul_one]
  rw [if_pos hgas]
  dsimp only
  rw [if_neg (show ¬(w < w) from by omega)]
  rw [List.drop_eq_nil_of_le (le_of_eq hlen)]
  simp only [MAX_OPCODE_BITS]
  rw [show v <<< (24 - w) >>> (24 - w) = v from by
    rw [Nat.shiftLeft_eq, Nat.shiftRight_eq_div_pow]
    exact Nat.mul_div_cancel v (Nat.pos_pow_of_pos _ (by omega))]

/-- C9: executing opcode `7x` pushes the integer `((x+5) mod 16) - 5` (a
value in `[-5, 10]`) and executing `80xx` pushes `xx` as a signed 8-bit
integer; both handlers return `Ok(0)` so execution continues.  Stated over
`VmState::step` on codepage 0 with the pre-charged gas available. -/
theorem claim_pushint_opcodes :
    (∀ (x : Nat), x < 16 → ∀ (st : VmState), st.cp = codepage0 →
      st.code.bits = natToBits 8 (0x70 + x) → 18 ≤ st.gas.gas_remaining →
      (st.step = (.ok 0,
        { st with
          steps := st.steps + 1
          code := { st.code with bits := [] }
          gas := { st.gas with gas_remaining := st.gas.gas_remaining - 18 }
          stack := .int ((((x + 5) % 16 : Nat) : Int) - 5) :: st.stack }) ∧
       -5 ≤ ((((x + 5) % 16 : Nat) : Int) - 5) ∧
       ((((x + 5) % 16 : Nat) : Int) - 5) ≤ 10)) ∧
    (∀ (v : Nat), v < 256 → ∀ (st : VmState), st.cp = codepage0 →
      st.code.bits = natToBits 16 (0x8000 + v) → 26 ≤ st.gas.gas_remaining →
      st.step = (.ok 0,
        { st with
          steps := st.steps + 1
          code := { st.code with bits := [] }
          gas := { st.gas with gas_remaining := st.gas.gas_remaining - 26 }
          stack := .int (if v < 128 then (v : Int) else (v : Int) - 256)
            :: st.stack })) := by
  constructor
  · intro x hx st hcp hbits hgas
    have hmod : ((0x70 + x) + 5) &&& 0xf = (x + 5) % 16 := by
      rw [Nat.and_pow_two_sub_one_eq_mod ((0x70 + x) + 5) 4]
      omega
    have hm5 : -5 ≤ ((((x + 5) % 16 : Nat) : Int) - 5) := by
      have : (0:Int) ≤ (((x + 5) % 16 : Nat) : Int) := Int.ofNat_nonneg _
      omega
    have h10 : ((((x + 5) % 16 : Nat) : Int) - 5) ≤ 10 := by
      have h1 : (x + 5) % 16 ≤ 15 := by omega
      have h2 : (((x + 5) % 16 : Nat) : Int) ≤ 15 := by exact_mod_cast h1
      omega
    have hstep := step_fixed_eval st 8 (0x70 + x) 0x700000 0x800000 .pushTinyint4
      hcp hbits (by omega) (by omega) (by omega)
      (by decide)
      (by rw [Nat.shiftLeft_eq]; omega)
      (by rw [Nat.shiftLeft_eq]; omega)
      hgas
    refine ⟨?_, hm5, h10⟩
    rw [hstep]
    unfold runInstr exec_push_tinyint4 Stack.push_int Stack.push_raw_int
    dsimp only
    rw [hmod]
    rw [if_pos (show intInRange ((((x + 5) % 16 : Nat) : Int) - 5) from
      ⟨le_trans (by norm_num) hm5, lt_of_le_of_lt h10 (by norm_num)⟩)]
  · intro v hv st hcp hbits hgas
    have hmod : (0x8000 + v) % 256 = v := by omega
    have hval : asI8 (0x8000 + v) = (if v < 128 then (v : Int) else (v : Int) - 256) := by
      unfold asI8
      simp only [hmod]
    have hrange : intInRange (if v < 128 then (v : Int) else (v : Int) - 256) := by
      unfold intInRange
      have h0 : (0:Int) ≤ (v : Int) := Int.ofNat_nonneg _
      have h1 : (v : Int) < 256 := by exact_mod_cast hv
      have hbig : (256:Int) < 2 ^ 256 := by norm_num
      have hbig2 : -(2:Int) ^ 256 ≤ -256 := by norm_num
      constructor <;> split <;> omega
    have hstep := step_fixed_eval st 16 (0x8000 + v) 0x800000 0x810000 .pushInt8
      hcp hbits (by omega) (by omega) (by omega)
      (by decide)
      (by rw [Nat.shiftLeft_eq]; omega)
      (by rw [Nat.shiftLeft_eq]; omega)
      hgas
    rw [hstep]
    unfold runInstr
    dsimp only
    rw [hval]
    unfold exec_push_tinyint4 Stack.push_int Stack.push_raw_int
    dsimp only
    rw [if_pos hrange]

set_option maxRecDepth 4000 in
/-- Witness for C9: code `77` pushes 7 and code `80FF` pushes `-1`, as in
spec scenarios 2 and 3. -/
theorem claim_pushint_opcodes_witness :
    ((baseState { bits := natToBits 8 (0x70 + 7), refs := [] } [] 1000).step.1
      = .ok 0) ∧
    ((baseState { bits := natToBits 8 (0x70 + 7), refs := [] } [] 1000).step.2.stack
      = [.int 7]) ∧
    ((baseState { bits := natToBits 16 (0x8000 + 0xFF), refs := [] } [] 1000).step.2.stack
      = [.int (-1)]) := by
  have h1 := (claim_pushint_opcodes.1 7 (by decide)
    (baseState { bits := natToBits 8 (0x70 + 7), refs := [] } [] 1000)
    rfl rfl (by decide)).1
  have h2 := claim_pushint_opcodes.2 0xFF (by decide)
    (baseState { bits := natToBits 16 (0x8000 + 0xFF), refs := [] } [] 1000)
    rfl rfl (by decide)
  refine ⟨?_, ?_, ?_⟩
  · rw [h1]
  · rw [h1]
    have hstack : (baseState { bits := natToBits 8 (0x70 + 7), refs := [] } [] 1000).stack
        = [] := rfl
    simp only [hstack]
    norm_num
  · rw [h2]
    have hstack : (baseState { bits := natToBits 16 (0x8000 + 0xFF), refs := [] } [] 1000).stack
        = [] := rfl
    simp only [hstack]
    norm_num

/-- C7: when a step yields a non-zero exit code `r` with `r | 1 == -1`,
`run` attempts `try_commit`: on success it returns `r` (with the committed
state recorded), on failure it resets the stack to the single integer 0 and
returns the CellOverflow exit code.  For non-zero `r` with `r | 1 != -1`,
`run` returns `r` with the state untouched — no commit is attempted. -/
theorem claim_run_commit (st st' : VmState) (r : Int) (fuel : Nat)
    (hstep : st.step = (.ok r, st')) (hr : r ≠ 0) :
    (Int.lor r 1 = -1 →
      (st'.try_commit.1 = true → st.run (fuel + 1) = some (r, st'.try_commit.2)) ∧
      (st'.try_commit.1 = false →
        st.run (fuel + 1) = some (VmError.cellOverflow.exceptionCode,
          { st'.try_commit.2 with stack := [.int 0] }))) ∧
    (Int.lor r 1 ≠ -1 → st.run (fuel + 1) = some (r, st')) := by
  unfold VmState.run VmState.runIter
  rw [hstep]
  unfold runRes
  dsimp only
  rw [if_neg hr]
  by_cases hlor : Int.lor r 1 = -1
  · rw [if_pos hlor]
    refine ⟨fun _ => ⟨?_, ?_⟩, fun h => absurd hlor h⟩
    · intro hc
      have hpair : st'.try_commit = (true, st'.try_commit.2) := by
        rw [← hc]
      rw [hpair]
    · intro hc
      have hpair : st'.try_commit = (false, st'.try_commit.2) := by
        rw [← hc]
      rw [hpair]
  · rw [if_neg hlor]
    exact ⟨fun h => absurd h hlor, fun _ => rfl⟩

/-- The exit code `!0 = -1` satisfies the run loop's try-commit test
(`Nat.bitwise` does not reduce definitionally, so this is proved through
`Nat.bitwise_zero_left`). -/
theorem lor_neg_one : Int.lor (-1) 1 = -1 := by
  show Int.lor (Int.negSucc 0) (Int.ofNat 1) = Int.negSucc 0
  unfold Int.lor
  have hz : Nat.ldiff 0 1 = 0 := by
    unfold Nat.ldiff
    rw [Nat.bitwise_zero_left]
    simp
  simp [hz]

/-- Witness for C7: on the default build with empty code, the single step
returns the quit-0 exit code `-1` (`!0`), the automatic commit succeeds and
`run` returns `-1` with the committed state recorded. -/
theorem claim_run_commit_witness :
    (baseState CodeSlice.empty [] 0).run 1
      = some (-1, ((baseState CodeSlice.empty [] 0).step.2.try_commit).2) := by
  have hfst : (baseState CodeSlice.empty [] 0).step.1 = .ok (-1) := rfl
  have hstep : (baseState CodeSlice.empty [] 0).step
      = (.ok (-1), (baseState CodeSlice.empty [] 0).step.2) := by
    rw [← hfst]
  have h := claim_run_commit (baseState CodeSlice.empty [] 0)
    ((baseState CodeSlice.empty [] 0).step.2) (-1) 0 hstep (by decide)
  exact (h.1 lor_neg_one).1 rfl

/-- C8: dispatching an opcode that falls in a Dummy gap-filler entry
consumes exactly `base_instruction_gas = 10` (no per-bit gas) and fails with
`InvalidOpcode`, leaving the rest of the state — in particular the code
cursor — untouched; `run` on the unassigned opcode `FFFFFF` of codepage 0
surfaces this as exit code 6 with gas decreased by exactly 10. -/
theorem claim_dummy_invalid :
    (∀ (st : VmState) (mn mx opcode bits : Nat),
      GAS_PER_INSTRUCTION ≤ st.gas.gas_remaining →
      execOpcode (.dummy mn mx) st opcode bits
        = (.error .invalidOpcode,
          { st with gas := { st.gas with
              gas_remaining := st.gas.gas_remaining - GAS_PER_INSTRUCTION } })) ∧
    (∀ (st : VmState) (fuel : Nat), st.cp = codepage0 →
      st.code.bits = natToBits 24 0xFFFFFF → st.cr.c2 = some .excQuit →
      GAS_PER_INSTRUCTION ≤ st.gas.gas_remaining →
      ∃ st', st.run (fuel + 1) = some (6, st') ∧
        st'.gas.gas_remaining = st.gas.gas_remaining - GAS_PER_INSTRUCTION) := by
  have hdummy : ∀ (st : VmState) (mn mx opcode bits : Nat),
      GAS_PER_INSTRUCTION ≤ st.gas.gas_remaining →
      execOpcode (.dummy mn mx) st opcode bits
        = (.error .invalidOpcode,
          { st with gas := { st.gas with
              gas_remaining := st.gas.gas_remaining - GAS_PER_INSTRUCTION } }) := by
    intro st mn mx opcode bits hgas
    unfold execOpcode GasConsumer.try_consume
    rw [if_pos hgas]
  refine ⟨hdummy, ?_⟩
  intro st fuel hcp hbits hc2 hgas
  have hlookup : codepage0.lookup 0xFFFFFF = Opcode.dummy 0xb7a900 0x1000000 := by
    decide
  have hstep : st.step = (.error .invalidOpcode,
      { st with
        steps := st.steps + 1
        gas := { st.gas with
          gas_remaining := st.gas.gas_remaining - GAS_PER_INSTRUCTION } }) := by
    unfold VmState.step
    rw [if_pos (show st.code.bits ≠ [] from by rw [hbits]; decide)]
    unfold DispatchTable.dispatch
    rw [hcp]
    have hop : getOpcodeFromSlice
        { bits := natToBits 24 0xFFFFFF, refs := st.code.refs }
        = (0xFFFFFF, 24) := rfl
    have hcode : ({ st with steps := st.steps + 1 } : VmState).code
        = ({ bits := natToBits 24 0xFFFFFF, refs := st.code.refs } : CodeSlice) := by
      show st.code = _
      rw [← hbits]
    rw [hcode, hop]
    dsimp only
    rw [hlookup]
    exact hdummy _ 0xb7a900 0x1000000 0xFFFFFF 24 hgas
  unfold VmState.run VmState.runIter
  rw [hstep]
  dsimp only
  unfold VmState.throw_exception
  dsimp only
  rw [show VmError.invalidOpcode.exceptionCode = (6 : Int) from rfl]
  rw [hc2]
  unfold VmState.jump VmCont.getControlData VmCont.jump Stack.popSmallintRange
  dsimp only
  rw [if_pos (by norm_num : (0:Int) ≤ 6 ∧ (6:Int) ≤ (65535 : Nat))]
  have hlor : Int.lor 6 1 = (7 : Int) := by decide
  dsimp only
  unfold runRes
  norm_num [hlor]

set_option maxRecDepth 4000 in
/-- Witness for C8: running code `FFFFFF` on the default build with gas
1000 exits with code 6 and exactly 10 gas consumed (spec scenario 7). -/
theorem claim_dummy_invalid_witness :
    ∃ st', (baseState { bits := natToBits 24 0xFFFFFF, refs := [] } [] 1000).run 1
        = some (6, st') ∧
      st'.gas.gas_remaining
        = (baseState { bits := natToBits 24 0xFFFFFF, refs := [] } [] 1000).gas.gas_remaining
          - GAS_PER_INSTRUCTION :=
  claim_dummy_invalid.2 (baseState { bits := natToBits 24 0xFFFFFF, refs := [] } [] 1000)
    0 rfl rfl rfl (by decide)

/-- `try_consume` either succeeds, subtracting exactly the amount, or
raises OutOfGas leaving the meter untouched. -/
theorem try_consume_spec (g : GasConsumer) (a : Nat) :
    (a ≤ g.gas_remaining ∧ g.try_consume a
        = (.ok (), { g with gas_remaining := g.gas_remaining - a })) ∨
    (¬(a ≤ g.gas_remaining) ∧ g.try_consume a = (.error .outOfGas, g)) := by
  unfold GasConsumer.try_consume
  split
  · exact Or.inl ⟨by assumption, rfl⟩
  · exact Or.inr ⟨by assumption, rfl⟩

/-- `pushIntFinish` never touches the gas meter. -/
theorem pushIntFinish_gas (st : VmState) (r : Except VmError Stack) :
    (pushIntFinish st r).2.gas = st.gas := by
  cases r <;> rfl

/-- `exec_push_int` never touches the gas meter. -/
theorem exec_push_int_gas (st : VmState) (args bits : Nat) :
    (exec_push_int st args bits).2.gas = st.gas := by
  unfold exec_push_int
  lift_lets
  extract_lets l vl cb iv st1 st2
  split
  · rfl
  · exact pushIntFinish_gas _ _

/-- Handlers never touch the gas meter: `runInstr` preserves `gas` exactly
(pre-charging happens in the `Opcode::dispatch` wrappers). -/
theorem runInstr_gas (ex : InstrExec) (args bits : Nat) (st : VmState) :
    (runInstr ex args bits st).2.gas = st.gas := by
  cases ex
  case pushIntExt => exact exec_push_int_gas st args bits
  all_goals
    simp only [runInstr, exec_add, exec_sub, exec_subr, exec_mul, exec_negate,
      exec_inc, exec_dec, exec_addint, exec_mulint, exec_push_tinyint4,
      exec_push_pow2, exec_push_nan, exec_push_pow2dec,
      exec_push_negpow2, execBinOp, execUnOp] <;>
    (repeat' split) <;> rfl

/-- The gas pre-charge of every `Opcode::dispatch` wrapper: gas never
increases, and unless the wrapper raises OutOfGas it consumes at least
`GAS_PER_INSTRUCTION`. -/
theorem execOpcode_gas (op : Opcode) (st : VmState) (opcode bits : Nat) :
    (execOpcode op st opcode bits).2.gas.gas_remaining ≤ st.gas.gas_remaining ∧
    ((execOpcode op st opcode bits).1 ≠ .error .outOfGas →
      (execOpcode op st opcode bits).2.gas.gas_remaining + GAS_PER_INSTRUCTION
        ≤ st.gas.gas_remaining) := by
  cases op with
  | dummy mn mx =>
    unfold execOpcode
    dsimp only
    rcases try_consume_spec st.gas GAS_PER_INSTRUCTION with ⟨hle, heq⟩ | ⟨hgt, heq⟩ <;>
      rw [heq] <;> dsimp only
    · exact ⟨by omega, fun _ => by omega⟩
    · exact ⟨le_refl _, fun hc => absurd rfl hc⟩
  | simple mn mx obits ex =>
    unfold execOpcode
    dsimp only
    rcases try_consume_spec st.gas (GAS_PER_INSTRUCTION + obits * GAS_PER_BIT)
      with ⟨hle, heq⟩ | ⟨hgt, heq⟩ <;> rw [heq] <;> dsimp only
    · split
      · exact ⟨by dsimp only; omega, fun _ => by dsimp only; omega⟩
      · rw [runInstr_gas]
        dsimp only
        exact ⟨by omega, fun _ => by omega⟩
    · exact ⟨le_refl _, fun hc => absurd rfl hc⟩
  | fixed mn mx tbits ex =>
    unfold execOpcode
    dsimp only
    rcases try_consume_spec st.gas (GAS_PER_INSTRUCTION + tbits * GAS_PER_BIT)
      with ⟨hle, heq⟩ | ⟨hgt, heq⟩ <;> rw [heq] <;> dsimp only
    · split
      · exact ⟨by dsimp only; omega, fun _ => by dsimp only; omega⟩
      · rw [runInstr_gas]
        dsimp only
        exact ⟨by omega, fun _ => by omega⟩
    · exact ⟨le_refl _, fun hc => absurd rfl hc⟩
  | ext mn mx tbits ex =>
    unfold execOpcode
    dsimp only
    rcases try_consume_spec st.gas (GAS_PER_INSTRUCTION + tbits * GAS_PER_BIT)
      with ⟨hle, heq⟩ | ⟨hgt, heq⟩ <;> rw [heq] <;> dsimp only
    · split
      · exact ⟨by dsimp only; omega, fun _ => by dsimp only; omega⟩
      · rw [runInstr_gas]
        dsimp only
        exact ⟨by omega, fun _ => by omega⟩
    · exact ⟨le_refl _, fun hc => absurd rfl hc⟩

/-- `try_consume` never increases the remaining gas. -/
theorem try_consume_mono (g : GasConsumer) (a : Nat) :
    (g.try_consume a).2.gas_remaining ≤ g.gas_remaining := by
  rcases try_consume_spec g a with ⟨h, heq⟩ | ⟨h, heq⟩ <;>
    (rw [heq]; try (dsimp only; omega))

/-- Loading a cell through the gas context never increases remaining gas. -/
theorem consumeLoadCell_gas (g : GasConsumer) (c : Cell) :
    (g.consumeLoadCell c).2.gas_remaining ≤ g.gas_remaining := by
  unfold GasConsumer.consumeLoadCell
  split
  · exact try_consume_mono g OLD_CELL_GAS
  · exact try_consume_mono
      { g with loaded_cells := c.hash :: g.loaded_cells } NEW_CELL_GAS

/-- The `Cont::jump` impls never touch the gas meter. -/
theorem contJump_gas (c : VmCont) (st : VmState) :
    (c.jump st).2.gas = st.gas := by
  cases c with
  | quit ec => rfl
  | excQuit =>
    simp only [VmCont.jump]
    split <;> rfl
  | ordinary code data =>
    simp only [VmCont.jump, VmState.force_cp]
    split
    next cp hcp =>
      rcases hc : codepage cp with _ | t <;> rfl
    next => rfl

/-- `VmState::jump_ext` never touches the gas meter. -/
theorem jump_ext_gas (st : VmState) (cont : VmCont) (pa : Option Nat) :
    (st.jump_ext cont pa).2.gas = st.gas := by
  simp only [VmState.jump_ext]
  (repeat' split) <;> first
  | rfl
  | rw [contJump_gas]

/-- `VmState::jump` never touches the gas meter. -/
theorem jump_gas (st : VmState) (cont : VmCont) :
    (st.jump cont).2.gas = st.gas := by
  simp only [VmState.jump]
  (repeat' split) <;> first
  | exact jump_ext_gas st cont none
  | exact contJump_gas cont st

/-- `VmState::take_c0` never touches the gas meter. -/
theorem take_c0_gas (st : VmState) :
    (VmState.take_c0 st).2.gas = st.gas := by
  unfold VmState.take_c0
  dsimp only
  split <;> rfl

/-- `VmState::ret` never touches the gas meter (the source marks the
implicit-RET gas price as TODO; `ret` itself charges nothing). -/
theorem ret_gas (st : VmState) : (VmState.ret st).2.gas = st.gas := by
  unfold VmState.ret
  split
  next cont st1 heq =>
    have h2 : (VmState.take_c0 st).2.gas = st1.gas := by rw [heq]
    rw [jump_gas, ← h2, take_c0_gas]
  next e st1 heq =>
    have h2 : (VmState.take_c0 st).2.gas = st1.gas := by rw [heq]
    show st1.gas = st.gas
    rw [← h2, take_c0_gas]

/-- `DispatchTable::dispatch` pre-charges gas: never increasing, and at
least `GAS_PER_INSTRUCTION` is consumed unless OutOfGas is raised. -/
theorem dispatch_gas (t : DispatchTable) (st : VmState) :
    (t.dispatch st).2.gas.gas_remaining ≤ st.gas.gas_remaining ∧
    ((t.dispatch st).1 ≠ .error .outOfGas →
      (t.dispatch st).2.gas.gas_remaining + GAS_PER_INSTRUCTION
        ≤ st.gas.gas_remaining) :=
  execOpcode_gas (t.lookup (getOpcodeFromSlice st.code).1) st
    (getOpcodeFromSlice st.code).1 (getOpcodeFromSlice st.code).2

/-- `consume_load_cell` either raises OutOfGas leaving the meter untouched,
or succeeds having consumed the cell-load price — `NEW_CELL_GAS` or
`OLD_CELL_GAS`, so at least `OLD_CELL_GAS`. -/
theorem consumeLoadCell_spec (g : GasConsumer) (c : Cell) :
    ((g.consumeLoadCell c).1 = .error .outOfGas ∧
      (g.consumeLoadCell c).2.gas_remaining = g.gas_remaining) ∨
    ((g.consumeLoadCell c).1 = .ok () ∧
      (g.consumeLoadCell c).2.gas_remaining + OLD_CELL_GAS
        ≤ g.gas_remaining) := by
  unfold GasConsumer.consumeLoadCell
  split
  · rcases try_consume_spec g OLD_CELL_GAS with ⟨h, heq⟩ | ⟨h, heq⟩
    · right
      rw [heq]
      exact ⟨rfl, by dsimp only; omega⟩
    · left
      rw [heq]
      exact ⟨rfl, rfl⟩
  · dsimp only
    rcases try_consume_spec { g with loaded_cells := c.hash :: g.loaded_cells }
        NEW_CELL_GAS with ⟨h, heq⟩ | ⟨h, heq⟩
    · right
      rw [heq]
      have h' : NEW_CELL_GAS ≤ g.gas_remaining := h
      have hc : OLD_CELL_GAS ≤ NEW_CELL_GAS := by decide
      exact ⟨rfl, by dsimp only; omega⟩
    · left
      rw [heq]
      exact ⟨rfl, rfl⟩

/-- Gas accounting of a single `VmState::step`: gas never increases; an
opcode-dispatching step consumes at least `GAS_PER_INSTRUCTION` unless it
raises OutOfGas; an implicit-JMPREF step consumes at least the minimum
cell-load price `OLD_CELL_GAS` unless it raises OutOfGas; an implicit-RET
step leaves the meter untouched. -/
theorem step_gas (st : VmState) :
    (st.step.2.gas.gas_remaining ≤ st.gas.gas_remaining) ∧
    (st.code.bits ≠ [] → st.step.1 ≠ .error .outOfGas →
      st.step.2.gas.gas_remaining + GAS_PER_INSTRUCTION
        ≤ st.gas.gas_remaining) ∧
    (st.code.bits = [] → st.code.refs ≠ [] → st.step.1 ≠ .error .outOfGas →
      st.step.2.gas.gas_remaining + OLD_CELL_GAS ≤ st.gas.gas_remaining) ∧
    (st.code.bits = [] → st.code.refs = [] → st.step.2.gas = st.gas) := by
  unfold VmState.step
  dsimp only
  split
  next hb =>
    have h := dispatch_gas st.cp { st with steps := st.steps + 1 }
    exact ⟨h.1, fun _ hoog => h.2 hoog,
      fun hbits _ _ => absurd hbits hb, fun hbits _ => absurd hbits hb⟩
  next hb =>
    split
    next cell rest heq =>
      split
      next u g heq2 =>
        have hg : (st.gas.consumeLoadCell cell).2 = g := by rw [heq2]
        rcases consumeLoadCell_spec st.gas cell with ⟨hf, _⟩ | ⟨_, hgr⟩
        · rw [heq2] at hf
          exact absurd hf (by simp)
        · rw [hg] at hgr
          refine ⟨?_, fun hbits _ => absurd hbits hb, fun _ _ _ => ?_,
            fun _ hrefs => by rw [heq] at hrefs; exact absurd hrefs (by simp)⟩
          · rw [jump_gas]
            show g.gas_remaining ≤ st.gas.gas_remaining
            omega
          · rw [jump_gas]
            exact hgr
      next e g heq2 =>
        have hg : (st.gas.consumeLoadCell cell).2 = g := by rw [heq2]
        rcases consumeLoadCell_spec st.gas cell with ⟨hf, hgr⟩ | ⟨hf, _⟩
        · rw [heq2] at hf
          have he : e = VmError.outOfGas := by simpa using hf
          rw [hg] at hgr
          refine ⟨by rw [hgr], fun hbits _ => absurd hbits hb,
            fun _ _ hne => ?_,
            fun _ hrefs => by rw [heq] at hrefs; exact absurd hrefs (by simp)⟩
          exact absurd (by rw [he]) hne
        · rw [heq2] at hf
          exact absurd hf (by simp)
    next heq =>
      have h := ret_gas { st with steps := st.steps + 1 }
      refine ⟨?_, fun hbits _ => absurd hbits hb,
        fun _ hrefs _ => absurd heq hrefs, fun _ _ => h⟩
      rw [h]

/-- C4 (amended): across any sequence of `step` calls `gas.remaining` is
non-increasing.  Every step that is not an implicit RET — i.e. every step
that dispatches an opcode or performs an implicit JMPREF — decreases it by
at least `base_instruction_gas = 10` unless it raises OutOfGas; an implicit
JMPREF in fact consumes at least the minimum cell-load price
`OLD_CELL_GAS = 25 ≥ 10`.  But a step that performs an implicit RET (no
data bits, no references) leaves `gas.remaining` exactly unchanged — the
source marks the implicit-RET gas price as TODO — so the frozen "every
step decreases it by at least 10" fails exactly on implicit-RET steps. -/
theorem claim_gas_monotonic (st : VmState) (n : Nat) :
    ((VmState.stepN n st).gas.gas_remaining ≤ st.gas.gas_remaining) ∧
    ((st.code.bits ≠ [] ∨ st.code.refs ≠ []) → st.step.1 ≠ .error .outOfGas →
      st.step.2.gas.gas_remaining + GAS_PER_INSTRUCTION
        ≤ st.gas.gas_remaining) ∧
    (st.code.bits = [] → st.code.refs ≠ [] → st.step.1 ≠ .error .outOfGas →
      st.step.2.gas.gas_remaining + OLD_CELL_GAS ≤ st.gas.gas_remaining) ∧
    (st.code.bits = [] → st.code.refs = [] → st.step.2.gas = st.gas) := by
  refine ⟨?_, ?_, (step_gas st).2.2.1, (step_gas st).2.2.2⟩
  · induction n generalizing st with
    | zero => exact le_refl _
    | succ n ih => exact le_trans (ih st.step.2) (step_gas st).1
  · intro hor hoog
    rcases hor with hbits | hrefs
    · exact (step_gas st).2.1 hbits hoog
    · by_cases hbits : st.code.bits = []
      · have h := (step_gas st).2.2.1 hbits hrefs hoog
        have hge : GAS_PER_INSTRUCTION ≤ OLD_CELL_GAS := by decide
        omega
      · exact (step_gas st).2.1 hbits hoog

set_option maxRecDepth 4000 in
/-- C4 counterexample to the frozen claim: on a state whose code cursor is
empty (implicit RET), `step` succeeds with exit value `-1` yet leaves
`gas.remaining` at exactly 1000 — it does not decrease by
`base_instruction_gas = 10`. -/
theorem claim_gas_monotonic_cex :
    ((baseState CodeSlice.empty [] 1000).step.1 = .ok (-1)) ∧
    ((baseState CodeSlice.empty [] 1000).step.2.gas.gas_remaining = 1000) ∧
    ¬((baseState CodeSlice.empty [] 1000).step.2.gas.gas_remaining
        + GAS_PER_INSTRUCTION
          ≤ (baseState CodeSlice.empty [] 1000).gas.gas_remaining) := by
  have hfst : (baseState CodeSlice.empty [] 1000).step.1 = .ok (-1) := rfl
  have hgas :
      (baseState CodeSlice.empty [] 1000).step.2.gas.gas_remaining = 1000 := rfl
  have hbase :
      (baseState CodeSlice.empty [] 1000).gas.gas_remaining = 1000 := rfl
  refine ⟨hfst, hgas, ?_⟩
  rw [hgas, hbase]
  decide

set_option maxRecDepth 4000 in
/-- Witness for C4 (amended) at a concrete input: one implicit-RET step
from a state with 1000 gas units is non-increasing. -/
theorem claim_gas_monotonic_witness :
    (VmState.stepN 1 (baseState CodeSlice.empty [] 1000)).gas.gas_remaining
      ≤ (baseState CodeSlice.empty [] 1000).gas.gas_remaining :=
  (claim_gas_monotonic (baseState CodeSlice.empty [] 1000) 1).1
